import Mathlib

/-!
# Verification of the C++ explicit-state model checker (`src/checker.h`)

This file gives a shallow embedding of the generic model-checking engine of
`src/checker.h` (template class `Checker<StateType>` together with the
`ModelState` mix-in providing `either`), and of the client models that the
claims reference, and proves or refutes the frozen claims about it.

Embedding conventions:

* `Fingerprint` (C++ `uint64_t`) is modelled as `Nat`: the engine uses a
  fingerprint only for equality tests and for the reserved `0` sentinel,
  so the 64-bit width never matters for any claim.
* A user model (`StateType` with the `ModelState` mix-in) is a record
  `Model σ` of the operations the engine calls: reading / writing the
  engine-owned `prevHash` field, `hash()` (which C++ dispatches through
  `absl::Hash` to the user's `AbslHashValue`), `satisfyInvariant`,
  `satisfyConstraint`, and `generate`.  `generate` is modelled as the
  function from the working state to the pair (state after `generate`
  returns, list of states passed to `onNewState` by `either`, in call
  order); the `either` combinator itself is embedded separately below.
* The mutable members of `Checker` (`_seenStates`, `_unvisited`, `_stats`)
  form the record `Chk`.  `std::unordered_map::insert` (insert-if-absent)
  is modelled on an association list with a lookup-then-append; since keys
  are therefore pairwise distinct, the first-match lookup agrees with the
  hash-map lookup.  `std::queue` push/pop become append / head-drop.
* Console output is modelled as a list of `OutEvent`s (one per `<<`-printed
  logical line); the exact formatting strings carry no claim content.
* The `InvariantViolatedException` thrown by `onNewState` and caught in
  `run` is modelled by the `bad : Option σ` component threaded through the
  call structure: `some v` means the exception is propagating (thrown on
  state `v`), and the fueled `runLoop` stops exactly as the C++ `catch`
  does.
* The `while` loops of `run` and `trace` are modelled with explicit fuel;
  a fuel-exhausted `run` returns `none` (the C++ loop would still be
  running).  In `trace`, a missing key makes the C++ dereference the `end`
  iterator (undefined behaviour) and a cyclic chain makes it loop forever;
  both are represented by `Except.error` values (`missingKey` / `outOfFuel`).
-/

namespace CxxMC

/-- C++ `using Fingerprint = uint64_t` — only equality and the reserved `0`
sentinel are ever used by the engine, so we model it as `Nat`. -/
abbrev Fingerprint := Nat

/-- One printed logical line of the engine (`std::cout` statements in
`checker.h`):  `violated` is `"Violated invariant."`, `traceState i s` is
`"State: i" << s`, `finished` is `"Model checking finished."`, and
`stats g u n` is the `getStats()` line
`"generated: g unique: u hash table size: n"`. -/
inductive OutEvent (σ : Type) where
  | violated : OutEvent σ
  | traceState : Nat → σ → OutEvent σ
  | finished : OutEvent σ
  | stats : Nat → Nat → Nat → OutEvent σ
  deriving DecidableEq, Repr

/-- The capabilities the engine uses from a `StateType` deriving from
`ModelState<StateType>`: the `prevHash` field (read and write), `hash()`,
`satisfyInvariant()`, `satisfyConstraint()` and `generate()`.
`generate w = (w', emitted)` means: running the user's `generate` on working
state `w` leaves the object equal to `w'` and passes the states `emitted`
(in order) to `Checker::onNewState` via `either`. -/
structure Model (σ : Type) where
  prevHash : σ → Fingerprint
  setPrevHash : σ → Fingerprint → σ
  hash : σ → Fingerprint
  satisfyInvariant : σ → Bool
  satisfyConstraint : σ → Bool
  generate : σ → σ × List σ

/-- The mutable state of a `Checker<StateType>` object: `_seenStates`
(association list, keys pairwise distinct by construction, kept in
insertion order), `_unvisited` (front = head), and the two `Stats`
counters. -/
structure Chk (σ : Type) where
  seen : List (Fingerprint × σ) := []
  queue : List σ := []
  generated : Nat := 0
  unique : Nat := 0
  deriving DecidableEq, Repr

/-- `_seenStates.find(fp)`: first entry with the given key (keys are
pairwise distinct in every state the engine builds, so "first" is
immaterial). -/
def seenLookup {σ : Type} (seen : List (Fingerprint × σ)) (fp : Fingerprint) : Option σ :=
  match seen.find? (fun kv => kv.1 == fp) with
  | some kv => some kv.2
  | none => none

/-- The two ways the C++ `trace` walk can fail to produce a trace:
`missingKey fp` — `_seenStates.find(fp)` returned the `end` iterator and the
code dereferences it (undefined behaviour, there is no checking branch in
the source); `outOfFuel` — the `while` loop would not terminate within the
given fuel (a cyclic `prevHash` chain loops forever in C++). -/
inductive TraceErr where
  | missingKey : Fingerprint → TraceErr
  | outOfFuel : TraceErr
  deriving DecidableEq, Repr

/-- The `while (cur.prevHash != 0)` walk of `Checker::trace`, producing the
visited states in visit order (end state first), with explicit fuel for the
loop. -/
def traceWalk {σ : Type} (M : Model σ) (seen : List (Fingerprint × σ)) :
    Nat → σ → Except TraceErr (List σ)
  | 0, cur =>
    if M.prevHash cur = 0 then .ok [cur] else .error .outOfFuel
  | fuel + 1, cur =>
    if M.prevHash cur = 0 then .ok [cur]
    else
      match seenLookup seen (M.prevHash cur) with
      | none => .error (.missingKey (M.prevHash cur))
      | some p => (traceWalk M seen fuel p).map (fun l => cur :: l)

/-- `Checker::trace(endState)`: walk the `prevHash` chain and reverse into
discovery order.  `seen.length` lookups always suffice in engine-produced
seen-sets (each hop moves to a strictly earlier insertion). -/
def traceOf {σ : Type} (M : Model σ) (seen : List (Fingerprint × σ)) (endState : σ) :
    Except TraceErr (List σ) :=
  (traceWalk M seen seen.length endState).map List.reverse

/-- The `"State: i" << errorTrace[i]` print loop of `onNewState`.  On an
`error` result the C++ behaviour is undefined / divergent before printing
any trace line (never reached in engine runs — see the C9 theorems). -/
def traceEvents {σ : Type} (r : Except TraceErr (List σ)) : List (OutEvent σ) :=
  match r with
  | .ok l => l.enum.map (fun p => OutEvent.traceState p.1 p.2)
  | .error _ => []

/-- Result of a call that may throw `InvariantViolatedException`:
the checker state on return or at the throw point, the output printed
during the call, and `bad = some v` when the exception is propagating
(thrown while admitting state `v`). -/
structure StepOut (σ : Type) where
  chk : Chk σ
  out : List (OutEvent σ)
  bad : Option σ
  deriving Repr

/-- `Checker::onNewState` (src/checker.h lines 86-111): increment
`generated`; insert-if-absent keyed by `state.hash()` and return on a
duplicate; increment `unique`; on invariant violation print
`"Violated invariant."` and the reconstructed trace and throw; on
constraint failure return without enqueuing; otherwise push onto
`_unvisited`. -/
def onNewState {σ : Type} (M : Model σ) (c : Chk σ) (s : σ) : StepOut σ :=
  let c1 : Chk σ := { c with generated := c.generated + 1 }
  let fp := M.hash s
  match seenLookup c1.seen fp with
  | some _ => ⟨c1, [], none⟩
  | none =>
    let c2 : Chk σ := { c1 with seen := c1.seen ++ [(fp, s)], unique := c1.unique + 1 }
    if M.satisfyInvariant s then
      if M.satisfyConstraint s then
        ⟨{ c2 with queue := c2.queue ++ [s] }, [], none⟩
      else ⟨c2, [], none⟩
    else
      ⟨c2, OutEvent.violated :: traceEvents (traceOf M c2.seen s), some s⟩

/-- Successive `onNewState` calls on a list of states, stopping when the
exception starts propagating (the remaining calls never happen). -/
def emitList {σ : Type} (M : Model σ) (c : Chk σ) : List σ → StepOut σ
  | [] => ⟨c, [], none⟩
  | s :: rest =>
    let r := onNewState M c s
    match r.bad with
    | some v => ⟨r.chk, r.out, some v⟩
    | none =>
      let r2 := emitList M r.chk rest
      ⟨r2.chk, r.out ++ r2.out, r2.bad⟩

/-- One iteration body of the BFS loop of `Checker::run` acting on the
popped state `cur` (the pop itself is done by the caller):
`newState = cur; newState.prevHash = cur.hash(); newState.generate();`
(each `either` inside `generate` calls `onNewState`), and finally
`onNewState(newState)` on the state `generate` leaves behind. -/
def expand {σ : Type} (M : Model σ) (c : Chk σ) (cur : σ) : StepOut σ :=
  let w := M.setPrevHash cur (M.hash cur)
  let g := M.generate w
  let r := emitList M c g.2
  match r.bad with
  | some _ => r
  | none =>
    let r2 := onNewState M r.chk g.1
    ⟨r2.chk, r.out ++ r2.out, r2.bad⟩

/-- The `while (!_unvisited.empty())` loop of `Checker::run`, fueled.
`none` means the fuel ran out with work remaining (the C++ loop is still
running).  A propagating exception exits the loop (it is caught just
outside it). -/
def runLoop {σ : Type} (M : Model σ) : Nat → Chk σ → Option (Chk σ × List (OutEvent σ) × Option σ)
  | 0, c => match c.queue with
    | [] => some (c, [], none)
    | _ :: _ => none
  | fuel + 1, c =>
    match c.queue with
    | [] => some (c, [], none)
    | cur :: rest =>
      let r := expand M { c with queue := rest } cur
      match r.bad with
      | some v => some (r.chk, r.out, some v)
      | none => (runLoop M fuel r.chk).map (fun p => (p.1, r.out ++ p.2.1, p.2.2))

/-- `Checker::run(initialStates)` (src/checker.h lines 64-84): inside the
`try`, call `onNewState` on each initial state exactly as given (the field
`prevHash` is NOT touched), then run the BFS loop; `InvariantViolatedException`
is caught and discarded; finally print `"Model checking finished."` and the
`getStats()` line.  Result `none` models fuel exhaustion (loop still
running, nothing printed yet). -/
def run {σ : Type} (M : Model σ) (fuel : Nat) (inits : List σ) :
    Option (Chk σ × List (OutEvent σ) × Option σ) :=
  let r := emitList M {} inits
  let afterTry : Option (Chk σ × List (OutEvent σ) × Option σ) :=
    match r.bad with
    | some v => some (r.chk, r.out, some v)
    | none => (runLoop M fuel r.chk).map (fun p => (p.1, r.out ++ p.2.1, p.2.2))
  afterTry.map (fun p =>
    (p.1,
     p.2.1 ++ [OutEvent.finished, OutEvent.stats p.1.generated p.1.unique p.1.seen.length],
     p.2.2))

/-! ## The `either` emitter (`ModelState::either`, src/checker.h lines 50-56)

A user `generate` body is a state transformer that may also emit states to
the engine; we model such a body as `GenM σ = σ → σ × List σ` (final working
state, emitted states in order).  `either fun_` snapshots the working state,
runs the branch body (whose own nested `either` calls contribute its inner
emissions), emits the mutated working state, and restores the snapshot. -/

/-- A fragment of a user `generate` body: final working state plus the list
of states it passes to `onNewState` (through nested `either` calls). -/
abbrev GenM (σ : Type) := σ → σ × List σ

/-- `ModelState::either(fun)`: `temp = state; fun(); onNewState(state);
state = temp;`.  The emission of the post-branch state happens after any
emissions `fun` itself produced (nested `either` calls fire innermost-first). -/
def either {σ : Type} (body : GenM σ) : GenM σ := fun w =>
  let t := body w
  (w, t.2 ++ [t.1])

/-- Sequencing of two `generate`-body fragments (C++ `;`). -/
def genSeq {σ : Type} (g1 g2 : GenM σ) : GenM σ := fun w =>
  let a := g1 w
  let b := g2 a.1
  (b.1, a.2 ++ b.2)

/-- A plain mutation of the working state with no emission (the body of a
single branch). -/
def genAct {σ : Type} (f : σ → σ) : GenM σ := fun w => (f w, [])

/-! ## Specification-side notions used to state the claims -/

/-- The logical content of a state: the state with the engine-owned
`prevHash` field zeroed. -/
def normSt {σ : Type} (M : Model σ) (s : σ) : σ := M.setPrevHash s 0

/-- A state is expanded further only when it passes both the invariant and
the constraint check (`onNewState` enqueues exactly those states). -/
def expandableB {σ : Type} (M : Model σ) (s : σ) : Bool :=
  M.satisfyInvariant s && M.satisfyConstraint s

/-- The emit-transitions out of a state, as the engine realises them when it
expands `s`: run `generate` on the working copy with `prevHash` set to
`s.hash()`, and take the logical content of each emitted state. -/
def succsOf {σ : Type} (M : Model σ) (s : σ) : List σ :=
  ((M.generate (M.setPrevHash s (M.hash s))).2).map (fun e => M.setPrevHash e 0)

/-- Cumulative breadth-first layers of logical states reachable from the
initial states by emit-transitions.  With `pruned = true`, transitions are
taken only out of states passing the invariant and the constraint (the graph
the engine actually explores); with `pruned = false`, out of every state
(the literal "minimum number of emit-transitions" reading). -/
def reachList {σ : Type} [DecidableEq σ] (M : Model σ) (pruned : Bool) (inits : List σ) :
    Nat → List σ
  | 0 => (inits.map (fun s => M.setPrevHash s 0)).dedup
  | n + 1 =>
    let prev := reachList M pruned inits n
    (prev ++ (prev.filter (fun s => !pruned || expandableB M s)).flatMap (succsOf M)).dedup

/-- `d` is the breadth-first depth of logical state `t`: the least number of
emit-transitions from some initial state to `t`. -/
def IsDepth {σ : Type} [DecidableEq σ] (M : Model σ) (pruned : Bool) (inits : List σ)
    (d : Nat) (t : σ) : Prop :=
  t ∈ reachList M pruned inits d ∧ ∀ m < d, t ∉ reachList M pruned inits m

/-- Number of trace lines (`"State: i" << s`) in an output. -/
def countTrace {σ : Type} (out : List (OutEvent σ)) : Nat :=
  out.countP (fun e => match e with | OutEvent.traceState _ _ => true | _ => false)

/-- The model-contract laws the engine relies on, all satisfied by the
repository's models: `prevHash` is a plain field (lens laws); the hash, the
invariant and the constraint read only the model fields (both repository
models' `AbslHashValue`, `satisfyInvariant`, `satisfyConstraint` never read
`prevHash`); `generate` leaves the working state as it found it (it is a
sequence of `either` blocks, each of which restores its snapshot) and its
emissions are computed from the model fields, carrying the working state's
`prevHash` unchanged (user branch bodies never write `prevHash`). -/
structure Contract {σ : Type} (M : Model σ) : Prop where
  prevHash_set : ∀ s f, M.prevHash (M.setPrevHash s f) = f
  set_set : ∀ s a b, M.setPrevHash (M.setPrevHash s a) b = M.setPrevHash s b
  set_self : ∀ s, M.setPrevHash s (M.prevHash s) = s
  hash_set : ∀ s f, M.hash (M.setPrevHash s f) = M.hash s
  inv_set : ∀ s f, M.satisfyInvariant (M.setPrevHash s f) = M.satisfyInvariant s
  con_set : ∀ s f, M.satisfyConstraint (M.setPrevHash s f) = M.satisfyConstraint s
  gen_fst : ∀ w, (M.generate w).1 = w
  gen_set : ∀ s f, (M.generate (M.setPrevHash s f)).2
      = ((M.generate s).2).map (fun e => M.setPrevHash e f)

/-! ## Concrete models used as witnesses and counterexamples -/

/-- A minimal contract-conforming model: the state consists of the
engine-owned `prevHash` field alone (no model fields), the hash is an
arbitrary nonzero constant (it reads no model field, there are none), the
invariant and the constraint hold everywhere, and `generate` emits nothing
(it calls `either` zero times). -/
def TrivM : Model Fingerprint where
  prevHash := id
  setPrevHash := fun _ f => f
  hash := fun _ => 1
  satisfyInvariant := fun _ => true
  satisfyConstraint := fun _ => true
  generate := fun w => (w, [])

/-- A labelled-graph state: the engine-owned `prevHash` plus one model field
`val` naming a vertex. -/
structure LSt where
  prevHash : Fingerprint
  val : Nat
  deriving DecidableEq, Repr

/-- Edges of the pruned-path example: `0 → 1, 0 → 2, 1 → 4, 2 → 3, 3 → 4`.
The short path `0 → 1 → 4` passes through vertex `1`, which the constraint
rejects. -/
def pEdges : Nat → List Nat
  | 0 => [1, 2]
  | 1 => [4]
  | 2 => [3]
  | 3 => [4]
  | _ => []

/-- Model with a collision-free, `prevHash`-ignoring, nonzero hash, whose
constraint prunes vertex `1` and whose invariant fails exactly at vertex `4`. -/
def PModel : Model LSt where
  prevHash := LSt.prevHash
  setPrevHash := fun s f => { s with prevHash := f }
  hash := fun s => s.val + 1
  satisfyInvariant := fun s => s.val != 4
  satisfyConstraint := fun s => s.val != 1
  generate := fun w => (w, (pEdges w.val).map (fun n => { w with val := n }))

/-- Edges of the straight-line example `0 → 1 → 2`. -/
def lEdges : Nat → List Nat
  | 0 => [1]
  | 1 => [2]
  | _ => []

/-- Straight-line model without pruning; the invariant fails exactly at
vertex `2`, two emit-transitions from the initial vertex `0`. -/
def LineM : Model LSt where
  prevHash := LSt.prevHash
  setPrevHash := fun s f => { s with prevHash := f }
  hash := fun s => s.val + 1
  satisfyInvariant := fun s => s.val != 2
  satisfyConstraint := fun _ => true
  generate := fun w => (w, (lEdges w.val).map (fun n => { w with val := n }))

/-! ## The DieHard model (`src/die_hard_checker.cpp`)

`int8_t big, small` stay within `[0, 5]` and `[0, 3]` on every reachable
state and every branch body computes values well inside `int8_t` range, so
we model them as `Int` (no wrap-around can occur). -/

/-- The DieHard state: the `ModelState` mix-in's `prevHash` plus the two jug
fields. -/
structure DHState where
  prevHash : Fingerprint
  big : Int
  small : Int
  deriving DecidableEq, Repr

/-- `FillSmallJug`: `small = 3`. -/
def dhFillSmall (s : DHState) : DHState := { s with small := 3 }

/-- `FillBigJug`: `big = 5`. -/
def dhFillBig (s : DHState) : DHState := { s with big := 5 }

/-- `EmptySmallJug`: `small = 0`. -/
def dhEmptySmall (s : DHState) : DHState := { s with small := 0 }

/-- `EmptyBigJug`: `big = 0`. -/
def dhEmptyBig (s : DHState) : DHState := { s with big := 0 }

/-- `SmallToBig`.  The C++ assigns `big = 5` first and then reads the
updated `big` in `small = big + small - 5`; we reproduce the source's
assignment order exactly (so in the overflow branch `small` ends up
unchanged: `5 + small - 5`). -/
def dhSmallToBig (s : DHState) : DHState :=
  if s.big + s.small > 5 then
    let s1 := { s with big := (5 : Int) }
    { s1 with small := s1.big + s1.small - 5 }
  else
    let s1 := { s with big := s.big + s.small }
    { s1 with small := (0 : Int) }

/-- `BigToSmall`: both assignments read pre-assignment values in the source
order (`big` is updated from the old `small`, then `small = 3`; in the other
branch `small` is updated from the old `big`, then `big = 0`). -/
def dhBigToSmall (s : DHState) : DHState :=
  if s.big + s.small > 3 then
    let s1 := { s with big := s.big + s.small - 3 }
    { s1 with small := (3 : Int) }
  else
    let s1 := { s with small := s.small + s.big }
    { s1 with big := (0 : Int) }

/-- `State::generate` of the DieHard model: six `either` branches in source
order. -/
def dhGenerate : GenM DHState :=
  genSeq (either (genAct dhFillSmall))
    (genSeq (either (genAct dhFillBig))
      (genSeq (either (genAct dhEmptySmall))
        (genSeq (either (genAct dhEmptyBig))
          (genSeq (either (genAct dhSmallToBig))
            (either (genAct dhBigToSmall))))))

/-- The DieHard model over an arbitrary mixing function `mix`:
`absl::Hash<State>` is a process-seeded, otherwise unspecified hash whose
input is exactly what the user's `AbslHashValue` combines — `s.big` and
`s.small`, and nothing else (in particular not `prevHash`).  We therefore
parameterise the embedded hash by the mixing function.  The DieHard `State`
declares no `satisfyConstraint` (it was written against the draft engine
without constraints), so the embedding uses the trivially-true constraint. -/
def dhModel (mix : Int → Int → Fingerprint) : Model DHState where
  prevHash := DHState.prevHash
  setPrevHash := fun s f => { s with prevHash := f }
  hash := fun s => mix s.big s.small
  satisfyInvariant := fun s => s.big != 4
  satisfyConstraint := fun _ => true
  generate := dhGenerate

/-- One concrete representative mixing function, used where the counterexample
needs a closed computation; every property proved of it below also holds for
any other function of the two `AbslHashValue` arguments. -/
def dhMix (a b : Int) : Fingerprint := 16 * a.natAbs + b.natAbs + 1

/-- The shape the engine's insert discipline gives the seen-set, recorded in
insertion order: each inserted entry is keyed by the hash of its state, was
fresh at insertion time, and its state's `prevHash` is either the reserved
`0` or a key already present at insertion time (so the `prevHash` chain
always descends to strictly earlier insertions). -/
inductive SeenChainR {σ : Type} (M : Model σ) : List (Fingerprint × σ) → Prop
  | nil : SeenChainR M []
  | snoc (seen : List (Fingerprint × σ)) (s : σ)
      (h : SeenChainR M seen)
      (hfresh : seenLookup seen (M.hash s) = none)
      (hprev : M.prevHash s = 0 ∨ ∃ y, seenLookup seen (M.prevHash s) = some y) :
      SeenChainR M (seen ++ [(M.hash s, s)])

/-- Every queued state's fingerprint is a key of the seen-set (the engine
pushes a state only right after inserting it). -/
def QueueKeys {σ : Type} (M : Model σ) (c : Chk σ) : Prop :=
  ∀ q ∈ c.queue, ∃ y, seenLookup c.seen (M.hash q) = some y

/-- One non-violating iteration of the `while (!_unvisited.empty())` loop of
`Checker::run`: pop the queue head, expand it (its emissions and the
restored working copy all go through `onNewState`), no exception raised.
`runLoop` is exactly the iteration of this step until the queue empties or
an exception propagates.  -/
inductive EStep {σ : Type} (M : Model σ) : Chk σ → Chk σ → Prop
  | pop (c : Chk σ) (cur : σ) (rest : List σ) (hq : c.queue = cur :: rest)
      (hok : (expand M { c with queue := rest } cur).bad = none) :
      EStep M c (expand M { c with queue := rest } cur).chk

/-- The collision-freedom and zero-avoidance assumptions of claim C2 on the
injected hash capability: equal fingerprints only for logically equal
states, and the reserved `0` sentinel is never an actual fingerprint. -/
structure GoodHash {σ : Type} (M : Model σ) : Prop where
  cf : ∀ s t, M.hash s = M.hash t → M.setPrevHash s 0 = M.setPrevHash t 0
  nz : ∀ s, M.hash s ≠ 0

/-- The ledger correspondence the BFS loop maintains between the checker
state and an abstract admission ledger `led` (admitted states with their
breadth-first depths, in admission order) and its queued sub-ledger `qled`:

* the seen-set is exactly the ledger keyed by hash, in admission order;
* the frontier queue is exactly the queued sub-ledger's states, an
  order-preserving sub-list of the ledger;
* keys are pairwise distinct;
* every ledger depth is the true breadth-first depth of its state's
  logical content in the pruned emit-transition graph;
* the trace walk from any admitted state succeeds and has length depth+1;
* depths are non-decreasing in admission order;
* queued states pass the invariant and the constraint;
* an expandable admitted state no longer in the queue has been expanded:
  all its emit-successors are logically in the seen-set;
* all admitted depths are at most (depth of the queue head) + 1;
* every initial state is logically in the seen-set. -/
structure BfsInv {σ : Type} [DecidableEq σ] (M : Model σ) (inits : List σ)
    (c : Chk σ) (led qled : List (σ × Nat)) : Prop where
  seen_eq : c.seen = led.map (fun p => (M.hash p.1, p.1))
  queue_eq : c.queue = qled.map Prod.fst
  qsub : qled.Sublist led
  nodup : (led.map (fun p => M.hash p.1)).Nodup
  depth : ∀ p ∈ led, IsDepth M true inits p.2 (normSt M p.1)
  walk : ∀ p ∈ led, ∀ fuel, led.length ≤ fuel →
      ∃ l, traceWalk M c.seen fuel p.1 = Except.ok l ∧ l.length = p.2 + 1
  mono : (led.map Prod.snd).Pairwise (· ≤ ·)
  qexp : ∀ p ∈ qled, expandableB M p.1 = true
  closure : ∀ p ∈ led, expandableB M p.1 = true → p.1 ∉ c.queue →
      ∀ t ∈ succsOf M p.1, ∃ y, seenLookup c.seen (M.hash t) = some y
  bound : ∀ pq ∈ qled.head?, ∀ p ∈ led, p.2 ≤ pq.2 + 1
  initsSeen : ∀ s ∈ inits, ∃ y, seenLookup c.seen (M.hash s) = some y

/-- The variant of `BfsInv` that holds in the middle of expanding the popped
state `cur` (of depth `k`), with `es` the emissions not yet submitted:
`cur` is exempt from the expanded-closure requirement, and instead all its
emit-successors other than the normalisations of `es` are already logically
seen; the pending emissions carry `prevHash = cur.hash()` and their logical
contents are emit-successors of `cur`. -/
structure MidInv {σ : Type} [DecidableEq σ] (M : Model σ) (inits : List σ)
    (cur : σ) (k : Nat) (c : Chk σ) (led qled : List (σ × Nat)) (es : List σ) : Prop where
  seen_eq : c.seen = led.map (fun p => (M.hash p.1, p.1))
  queue_eq : c.queue = qled.map Prod.fst
  qsub : qled.Sublist led
  nodup : (led.map (fun p => M.hash p.1)).Nodup
  depth : ∀ p ∈ led, IsDepth M true inits p.2 (normSt M p.1)
  walk : ∀ p ∈ led, ∀ fuel, led.length ≤ fuel →
      ∃ l, traceWalk M c.seen fuel p.1 = Except.ok l ∧ l.length = p.2 + 1
  mono : (led.map Prod.snd).Pairwise (· ≤ ·)
  qexp : ∀ p ∈ qled, expandableB M p.1 = true
  closure : ∀ p ∈ led, expandableB M p.1 = true → p.1 ∉ c.queue → p.1 ≠ cur →
      ∀ t ∈ succsOf M p.1, ∃ y, seenLookup c.seen (M.hash t) = some y
  bound : ∀ p ∈ led, p.2 ≤ k + 1
  qdepth : ∀ p ∈ qled, k ≤ p.2
  curled : (cur, k) ∈ led
  curexp : expandableB M cur = true
  curnotq : cur ∉ c.queue
  emits : ∀ e ∈ es, M.prevHash e = M.hash cur ∧ normSt M e ∈ succsOf M cur
  done : ∀ t ∈ succsOf M cur, t ∉ es.map (normSt M) →
      ∃ y, seenLookup c.seen (M.hash t) = some y
  initsSeen : ∀ s ∈ inits, ∃ y, seenLookup c.seen (M.hash s) = some y

/-- The ledger correspondence during the initial-states phase of `run`
(before the BFS loop): all admitted states are depth-0 logical contents of
initial states with `prevHash = 0`, every expandable admitted state is still
queued, and `done` collects the initial states already submitted. -/
structure InitInv {σ : Type} [DecidableEq σ] (M : Model σ) (inits0 : List σ)
    (done : List σ) (c : Chk σ) (led qled : List (σ × Nat)) : Prop where
  seen_eq : c.seen = led.map (fun p => (M.hash p.1, p.1))
  queue_eq : c.queue = qled.map Prod.fst
  qsub : qled.Sublist led
  nodup : (led.map (fun p => M.hash p.1)).Nodup
  zero : ∀ p ∈ led, p.2 = 0
  init0 : ∀ p ∈ led, normSt M p.1 ∈ reachList M true inits0 0
  prevz : ∀ p ∈ led, M.prevHash p.1 = 0
  allq : ∀ p ∈ led, expandableB M p.1 = true → p.1 ∈ c.queue
  qexp : ∀ p ∈ qled, expandableB M p.1 = true
  doneSeen : ∀ s ∈ done, ∃ y, seenLookup c.seen (M.hash s) = some y

/-! # Theorems

First a layer of small lemmas about the engine operations, then the
claim theorems. -/

theorem seenLookup_nil {σ : Type} (fp : Fingerprint) :
    seenLookup ([] : List (Fingerprint × σ)) fp = none := rfl

theorem seenLookup_cons {σ : Type} (a : Fingerprint × σ) (l : List (Fingerprint × σ))
    (fp : Fingerprint) :
    seenLookup (a :: l) fp = if a.1 = fp then some a.2 else seenLookup l fp := by
  simp only [seenLookup, List.find?]
  rcases h : (a.1 == fp) with _ | _
  · simp_all
  · simp_all

theorem seenLookup_append_left {σ : Type} {l1 : List (Fingerprint × σ)}
    (l2 : List (Fingerprint × σ)) {fp : Fingerprint} {x : σ}
    (h : seenLookup l1 fp = some x) : seenLookup (l1 ++ l2) fp = some x := by
  induction l1 with
  | nil => simp [seenLookup_nil] at h
  | cons a l ih =>
    rw [List.cons_append, seenLookup_cons]
    rw [seenLookup_cons] at h
    by_cases hfp : a.1 = fp <;> simp_all

theorem seenLookup_append_right {σ : Type} {l1 : List (Fingerprint × σ)}
    (l2 : List (Fingerprint × σ)) {fp : Fingerprint}
    (h : seenLookup l1 fp = none) : seenLookup (l1 ++ l2) fp = seenLookup l2 fp := by
  induction l1 with
  | nil => simp
  | cons a l ih =>
    rw [List.cons_append, seenLookup_cons]
    rw [seenLookup_cons] at h
    by_cases hfp : a.1 = fp <;> simp_all

theorem seenLookup_singleton {σ : Type} (fp : Fingerprint) (s : σ) :
    seenLookup [(fp, s)] fp = some s := by
  simp [seenLookup_cons]

theorem seenLookup_fresh_append {σ : Type} {l : List (Fingerprint × σ)} {fp : Fingerprint}
    (s : σ) (h : seenLookup l fp = none) :
    seenLookup (l ++ [(fp, s)]) fp = some s := by
  rw [seenLookup_append_right _ h, seenLookup_singleton]

/-- `onNewState` on a duplicate fingerprint: only `generated` moves. -/
theorem onNewState_dup {σ : Type} {M : Model σ} {c : Chk σ} {s : σ} {x : σ}
    (h : seenLookup c.seen (M.hash s) = some x) :
    onNewState M c s = ⟨{ c with generated := c.generated + 1 }, [], none⟩ := by
  simp [onNewState, h]

/-- `onNewState` on a fresh state passing both checks: insert, count, push. -/
theorem onNewState_fresh_push {σ : Type} {M : Model σ} {c : Chk σ} {s : σ}
    (h : seenLookup c.seen (M.hash s) = none)
    (hinv : M.satisfyInvariant s = true) (hcon : M.satisfyConstraint s = true) :
    onNewState M c s =
      ⟨{ seen := c.seen ++ [(M.hash s, s)], queue := c.queue ++ [s],
         generated := c.generated + 1, unique := c.unique + 1 }, [], none⟩ := by
  simp [onNewState, h, hinv, hcon]

/-- `onNewState` on a fresh state failing the constraint (invariant fine):
insert, count, but no push. -/
theorem onNewState_fresh_pruned {σ : Type} {M : Model σ} {c : Chk σ} {s : σ}
    (h : seenLookup c.seen (M.hash s) = none)
    (hinv : M.satisfyInvariant s = true) (hcon : M.satisfyConstraint s = false) :
    onNewState M c s =
      ⟨{ seen := c.seen ++ [(M.hash s, s)], queue := c.queue,
         generated := c.generated + 1, unique := c.unique + 1 }, [], none⟩ := by
  simp [onNewState, h, hinv, hcon]

/-- `onNewState` on a fresh state failing the invariant: insert, count,
print the violation banner and the trace, throw. -/
theorem onNewState_fresh_violated {σ : Type} {M : Model σ} {c : Chk σ} {s : σ}
    (h : seenLookup c.seen (M.hash s) = none)
    (hinv : M.satisfyInvariant s = false) :
    onNewState M c s =
      ⟨{ seen := c.seen ++ [(M.hash s, s)], queue := c.queue,
         generated := c.generated + 1, unique := c.unique + 1 },
       OutEvent.violated :: traceEvents (traceOf M (c.seen ++ [(M.hash s, s)]) s),
       some s⟩ := by
  simp [onNewState, h, hinv]

/-- Unfolding equation for `emitList` on the empty list. -/
theorem emitList_nil {σ : Type} (M : Model σ) (c : Chk σ) :
    emitList M c [] = ⟨c, [], none⟩ := rfl

/-- Unfolding equation for `emitList` on a cons. -/
theorem emitList_cons {σ : Type} (M : Model σ) (c : Chk σ) (s : σ) (rest : List σ) :
    emitList M c (s :: rest) =
      match (onNewState M c s).bad with
      | some v => ⟨(onNewState M c s).chk, (onNewState M c s).out, some v⟩
      | none =>
          ⟨(emitList M (onNewState M c s).chk rest).chk,
           (onNewState M c s).out ++ (emitList M (onNewState M c s).chk rest).out,
           (emitList M (onNewState M c s).chk rest).bad⟩ := rfl

/-- Unfolding equation for `expand`. -/
theorem expand_eq {σ : Type} (M : Model σ) (c : Chk σ) (cur : σ) :
    expand M c cur =
      match (emitList M c (M.generate (M.setPrevHash cur (M.hash cur))).2).bad with
      | some _ => emitList M c (M.generate (M.setPrevHash cur (M.hash cur))).2
      | none =>
          ⟨(onNewState M (emitList M c (M.generate (M.setPrevHash cur (M.hash cur))).2).chk
              (M.generate (M.setPrevHash cur (M.hash cur))).1).chk,
           (emitList M c (M.generate (M.setPrevHash cur (M.hash cur))).2).out ++
             (onNewState M (emitList M c (M.generate (M.setPrevHash cur (M.hash cur))).2).chk
               (M.generate (M.setPrevHash cur (M.hash cur))).1).out,
           (onNewState M (emitList M c (M.generate (M.setPrevHash cur (M.hash cur))).2).chk
             (M.generate (M.setPrevHash cur (M.hash cur))).1).bad⟩ := rfl

/-- Unfolding equation for `runLoop` at fuel `0`. -/
theorem runLoop_zero {σ : Type} (M : Model σ) (c : Chk σ) :
    runLoop M 0 c = match c.queue with
      | [] => some (c, [], none)
      | _ :: _ => none := rfl

/-- Unfolding equation for `runLoop` at positive fuel. -/
theorem runLoop_succ {σ : Type} (M : Model σ) (fuel : Nat) (c : Chk σ) :
    runLoop M (fuel + 1) c =
      match c.queue with
      | [] => some (c, [], none)
      | cur :: rest =>
        match (expand M { c with queue := rest } cur).bad with
        | some v => some ((expand M { c with queue := rest } cur).chk,
                          (expand M { c with queue := rest } cur).out, some v)
        | none => (runLoop M fuel (expand M { c with queue := rest } cur).chk).map
            (fun p : Chk σ × List (OutEvent σ) × Option σ =>
              (p.1, (expand M { c with queue := rest } cur).out ++ p.2.1, p.2.2)) := rfl

/-- Unfolding equation for `run`. -/
theorem run_eq {σ : Type} (M : Model σ) (fuel : Nat) (inits : List σ) :
    run M fuel inits =
      (match (emitList M {} inits).bad with
        | some v => some ((emitList M {} inits).chk, (emitList M {} inits).out, some v)
        | none => (runLoop M fuel (emitList M {} inits).chk).map
            (fun p : Chk σ × List (OutEvent σ) × Option σ =>
              (p.1, (emitList M {} inits).out ++ p.2.1, p.2.2))).map
        (fun p : Chk σ × List (OutEvent σ) × Option σ => (p.1,
          p.2.1 ++ [OutEvent.finished, OutEvent.stats p.1.generated p.1.unique p.1.seen.length],
          p.2.2)) := rfl

/-- After any `onNewState M c s`, the seen-set is either unchanged (the
fingerprint was a duplicate) or extended by exactly the new entry. -/
theorem onNewState_seen_cases {σ : Type} (M : Model σ) (c : Chk σ) (s : σ) :
    ((onNewState M c s).chk.seen = c.seen ∧ ∃ x, seenLookup c.seen (M.hash s) = some x)
  ∨ ((onNewState M c s).chk.seen = c.seen ++ [(M.hash s, s)]
      ∧ seenLookup c.seen (M.hash s) = none) := by
  rcases h : seenLookup c.seen (M.hash s) with _ | x
  · right
    refine ⟨?_, rfl⟩
    rcases hi : M.satisfyInvariant s with _ | _
    · rw [onNewState_fresh_violated h hi]
    · rcases hc : M.satisfyConstraint s with _ | _
      · rw [onNewState_fresh_pruned h hi hc]
      · rw [onNewState_fresh_push h hi hc]
  · left
    exact ⟨by rw [onNewState_dup h], x, rfl⟩

/-- After `onNewState M c s`, the key `s.hash()` is present in the seen-set. -/
theorem onNewState_key_present {σ : Type} (M : Model σ) (c : Chk σ) (s : σ) :
    ∃ y, seenLookup (onNewState M c s).chk.seen (M.hash s) = some y := by
  rcases onNewState_seen_cases M c s with ⟨he, x, hx⟩ | ⟨he, hn⟩
  · exact ⟨x, by rw [he, hx]⟩
  · exact ⟨s, by rw [he, seenLookup_fresh_append s hn]⟩

/-- `onNewState` only ever appends to the frontier queue. -/
theorem onNewState_queue_extends {σ : Type} (M : Model σ) (c : Chk σ) (s : σ) :
    ∃ ext, (onNewState M c s).chk.queue = c.queue ++ ext := by
  rcases h : seenLookup c.seen (M.hash s) with _ | x
  · rcases hi : M.satisfyInvariant s with _ | _
    · exact ⟨[], by rw [onNewState_fresh_violated h hi]; simp⟩
    · rcases hc : M.satisfyConstraint s with _ | _
      · exact ⟨[], by rw [onNewState_fresh_pruned h hi hc]; simp⟩
      · exact ⟨[s], by rw [onNewState_fresh_push h hi hc]⟩
  · exact ⟨[], by rw [onNewState_dup h]; simp⟩

/-- `emitList` only ever appends to the frontier queue. -/
theorem emitList_queue_extends {σ : Type} (M : Model σ) (c : Chk σ) (l : List σ) :
    ∃ ext, (emitList M c l).chk.queue = c.queue ++ ext := by
  induction l generalizing c with
  | nil => exact ⟨[], by simp [emitList_nil]⟩
  | cons s rest ih =>
    obtain ⟨e1, h1⟩ := onNewState_queue_extends M c s
    rcases hb : (onNewState M c s).bad with _ | v
    · obtain ⟨e2, h2⟩ := ih (onNewState M c s).chk
      refine ⟨e1 ++ e2, ?_⟩
      simp only [emitList_cons, hb]
      rw [h2, h1, List.append_assoc]
    · refine ⟨e1, ?_⟩
      simp only [emitList_cons, hb]
      exact h1

/-- `expand` only ever appends to the frontier queue: the states already
waiting in the queue are untouched by an expansion. -/
theorem expand_queue_extends {σ : Type} (M : Model σ) (c : Chk σ) (cur : σ) :
    ∃ ext, (expand M c cur).chk.queue = c.queue ++ ext := by
  obtain ⟨e1, h1⟩ := emitList_queue_extends M c (M.generate (M.setPrevHash cur (M.hash cur))).2
  rcases hb : (emitList M c (M.generate (M.setPrevHash cur (M.hash cur))).2).bad with _ | v
  · obtain ⟨e2, h2⟩ := onNewState_queue_extends M
      (emitList M c (M.generate (M.setPrevHash cur (M.hash cur))).2).chk
      (M.generate (M.setPrevHash cur (M.hash cur))).1
    refine ⟨e1 ++ e2, ?_⟩
    simp only [expand_eq, hb]
    rw [h2, h1, List.append_assoc]
  · refine ⟨e1, ?_⟩
    simp only [expand_eq, hb]
    exact h1

/-- If `onNewState` throws, it printed the violation banner. -/
theorem onNewState_bad_sound {σ : Type} {M : Model σ} {c : Chk σ} {s v : σ}
    (h : (onNewState M c s).bad = some v) :
    OutEvent.violated ∈ (onNewState M c s).out := by
  rcases hl : seenLookup c.seen (M.hash s) with _ | x
  · rcases hi : M.satisfyInvariant s with _ | _
    · rw [onNewState_fresh_violated hl hi]
      exact List.mem_cons_self _ _
    · rcases hc : M.satisfyConstraint s with _ | _
      · rw [onNewState_fresh_pruned hl hi hc] at h
        simp at h
      · rw [onNewState_fresh_push hl hi hc] at h
        simp at h
  · rw [onNewState_dup hl] at h
    simp at h

/-- If the exception is propagating out of `emitList`, the violation banner
is in its output. -/
theorem emitList_bad_sound {σ : Type} {M : Model σ} {c : Chk σ} {l : List σ} {v : σ}
    (h : (emitList M c l).bad = some v) :
    OutEvent.violated ∈ (emitList M c l).out := by
  induction l generalizing c with
  | nil => rw [emitList_nil] at h; simp at h
  | cons s rest ih =>
    rcases hb : (onNewState M c s).bad with _ | w
    · simp only [emitList_cons, hb] at h ⊢
      rw [List.mem_append]
      exact Or.inr (ih h)
    · simp only [emitList_cons, hb]
      exact onNewState_bad_sound hb

/-- If the exception is propagating out of `expand`, the violation banner is
in its output. -/
theorem expand_bad_sound {σ : Type} {M : Model σ} {c : Chk σ} {cur v : σ}
    (h : (expand M c cur).bad = some v) :
    OutEvent.violated ∈ (expand M c cur).out := by
  rcases hb : (emitList M c (M.generate (M.setPrevHash cur (M.hash cur))).2).bad with _ | w
  · simp only [expand_eq, hb] at h ⊢
    rw [List.mem_append]
    exact Or.inr (onNewState_bad_sound h)
  · simp only [expand_eq, hb]
    exact emitList_bad_sound hb

/-- If `runLoop` ends with the exception propagating, the violation banner
is in its output. -/
theorem runLoop_bad_sound {σ : Type} {M : Model σ} {fuel : Nat} {c c' : Chk σ}
    {out : List (OutEvent σ)} {v : σ}
    (h : runLoop M fuel c = some (c', out, some v)) :
    OutEvent.violated ∈ out := by
  induction fuel generalizing c out c' with
  | zero =>
    rw [runLoop_zero] at h
    rcases hq : c.queue with _ | ⟨q, qs⟩ <;> rw [hq] at h <;> simp_all
  | succ fuel ih =>
    rw [runLoop_succ] at h
    rcases hq : c.queue with _ | ⟨cur, rest⟩
    · rw [hq] at h; simp_all
    · rw [hq] at h
      dsimp only at h
      rcases hb : (expand M { c with queue := rest } cur).bad with _ | w
      · rw [hb] at h
        dsimp only at h
        rcases hrl : runLoop M fuel (expand M { c with queue := rest } cur).chk
          with _ | ⟨p1, p2, p3⟩
        · rw [hrl] at h; simp at h
        · rw [hrl] at h
          simp only [Option.map_some', Option.some.injEq, Prod.mk.injEq] at h
          obtain ⟨h1, h2, h3⟩ := h
          rw [← h2, List.mem_append]
          exact Or.inr (ih (by rw [hrl, h3]))
      · rw [hb] at h
        simp only [Option.some.injEq, Prod.mk.injEq] at h
        obtain ⟨h1, h2, h3⟩ := h
        rw [← h2]
        exact expand_bad_sound hb

/-- The seen-set only ever grows by appended entries (`onNewState`). -/
theorem onNewState_seen_extends {σ : Type} (M : Model σ) (c : Chk σ) (s : σ) :
    ∃ ext, (onNewState M c s).chk.seen = c.seen ++ ext := by
  rcases onNewState_seen_cases M c s with ⟨he, _⟩ | ⟨he, _⟩
  · exact ⟨[], by rw [he, List.append_nil]⟩
  · exact ⟨[(M.hash s, s)], he⟩

/-- The seen-set only ever grows by appended entries (`emitList`). -/
theorem emitList_seen_extends {σ : Type} (M : Model σ) (c : Chk σ) (l : List σ) :
    ∃ ext, (emitList M c l).chk.seen = c.seen ++ ext := by
  induction l generalizing c with
  | nil => exact ⟨[], by rw [emitList_nil, List.append_nil]⟩
  | cons s rest ih =>
    obtain ⟨e1, h1⟩ := onNewState_seen_extends M c s
    rcases hb : (onNewState M c s).bad with _ | v
    · obtain ⟨e2, h2⟩ := ih (onNewState M c s).chk
      refine ⟨e1 ++ e2, ?_⟩
      simp only [emitList_cons, hb]
      rw [h2, h1, List.append_assoc]
    · refine ⟨e1, ?_⟩
      simp only [emitList_cons, hb]
      exact h1

/-- The seen-set only ever grows by appended entries (`expand`). -/
theorem expand_seen_extends {σ : Type} (M : Model σ) (c : Chk σ) (cur : σ) :
    ∃ ext, (expand M c cur).chk.seen = c.seen ++ ext := by
  obtain ⟨e1, h1⟩ := emitList_seen_extends M c (M.generate (M.setPrevHash cur (M.hash cur))).2
  rcases hb : (emitList M c (M.generate (M.setPrevHash cur (M.hash cur))).2).bad with _ | v
  · obtain ⟨e2, h2⟩ := onNewState_seen_extends M
      (emitList M c (M.generate (M.setPrevHash cur (M.hash cur))).2).chk
      (M.generate (M.setPrevHash cur (M.hash cur))).1
    refine ⟨e1 ++ e2, ?_⟩
    simp only [expand_eq, hb]
    rw [h2, h1, List.append_assoc]
  · refine ⟨e1, ?_⟩
    simp only [expand_eq, hb]
    exact h1

/-- A state found in the queue after an `onNewState` call was either already
queued, or is the freshly admitted state itself (fresh at call time). -/
theorem onNewState_queue_origin {σ : Type} {M : Model σ} {c : Chk σ} {s q : σ}
    (h : q ∈ (onNewState M c s).chk.queue) :
    q ∈ c.queue ∨ (q = s ∧ seenLookup c.seen (M.hash s) = none) := by
  rcases hl : seenLookup c.seen (M.hash s) with _ | x
  · rcases hi : M.satisfyInvariant s with _ | _
    · rw [onNewState_fresh_violated hl hi] at h
      exact Or.inl h
    · rcases hc : M.satisfyConstraint s with _ | _
      · rw [onNewState_fresh_pruned hl hi hc] at h
        exact Or.inl h
      · rw [onNewState_fresh_push hl hi hc] at h
        rcases List.mem_append.mp h with h' | h'
        · exact Or.inl h'
        · exact Or.inr ⟨List.mem_singleton.mp h', rfl⟩
  · rw [onNewState_dup hl] at h
    exact Or.inl h

/-- Once a state's fingerprint is a key of the seen-set and the state is not
in the queue, no later `onNewState` can enqueue it (the fingerprint stays
present, so any attempt is rejected as a duplicate). -/
theorem banned_onNewState {σ : Type} {M : Model σ} {c : Chk σ} {s : σ} (t : σ)
    (hkey : ∃ y, seenLookup c.seen (M.hash s) = some y) (hq : s ∉ c.queue) :
    (∃ y, seenLookup (onNewState M c t).chk.seen (M.hash s) = some y)
    ∧ s ∉ (onNewState M c t).chk.queue := by
  obtain ⟨y, hy⟩ := hkey
  obtain ⟨ext, hext⟩ := onNewState_seen_extends M c t
  refine ⟨⟨y, by rw [hext]; exact seenLookup_append_left ext hy⟩, ?_⟩
  intro hmem
  rcases onNewState_queue_origin hmem with h' | ⟨rfl, hfresh⟩
  · exact hq h'
  · rw [hfresh] at hy
    cases hy

/-- `banned_onNewState` extended along `emitList`. -/
theorem banned_emitList {σ : Type} {M : Model σ} {c : Chk σ} {s : σ} (l : List σ)
    (hkey : ∃ y, seenLookup c.seen (M.hash s) = some y) (hq : s ∉ c.queue) :
    (∃ y, seenLookup (emitList M c l).chk.seen (M.hash s) = some y)
    ∧ s ∉ (emitList M c l).chk.queue := by
  induction l generalizing c with
  | nil => rw [emitList_nil]; exact ⟨hkey, hq⟩
  | cons t rest ih =>
    obtain ⟨hkey', hq'⟩ := banned_onNewState t hkey hq
    rcases hb : (onNewState M c t).bad with _ | v
    · have := ih hkey' hq'
      simpa only [emitList_cons, hb] using this
    · simpa only [emitList_cons, hb] using ⟨hkey', hq'⟩

/-- `banned_onNewState` extended along `expand`. -/
theorem banned_expand {σ : Type} {M : Model σ} {c : Chk σ} {s : σ} (cur : σ)
    (hkey : ∃ y, seenLookup c.seen (M.hash s) = some y) (hq : s ∉ c.queue) :
    (∃ y, seenLookup (expand M c cur).chk.seen (M.hash s) = some y)
    ∧ s ∉ (expand M c cur).chk.queue := by
  obtain ⟨hkey', hq'⟩ := banned_emitList
    (M.generate (M.setPrevHash cur (M.hash cur))).2 hkey hq
  rcases hb : (emitList M c (M.generate (M.setPrevHash cur (M.hash cur))).2).bad with _ | v
  · have := banned_onNewState (M := M)
      (c := (emitList M c (M.generate (M.setPrevHash cur (M.hash cur))).2).chk)
      (M.generate (M.setPrevHash cur (M.hash cur))).1 hkey' hq'
    simpa only [expand_eq, hb] using this
  · simpa only [expand_eq, hb] using ⟨hkey', hq'⟩

/-- `banned_onNewState` extended along one BFS iteration. -/
theorem banned_estep {σ : Type} {M : Model σ} {c c' : Chk σ} {s : σ}
    (hstep : EStep M c c')
    (hkey : ∃ y, seenLookup c.seen (M.hash s) = some y) (hq : s ∉ c.queue) :
    (∃ y, seenLookup c'.seen (M.hash s) = some y) ∧ s ∉ c'.queue := by
  rcases hstep with ⟨cur, rest, hqc, hok⟩
  refine banned_expand cur hkey ?_
  intro hmem
  exact hq (by rw [hqc]; exact List.mem_cons_of_mem _ hmem)

/-- `banned_onNewState` extended along any number of BFS iterations. -/
theorem banned_steps {σ : Type} {M : Model σ} {c c' : Chk σ} {s : σ}
    (hsteps : Relation.ReflTransGen (EStep M) c c')
    (hkey : ∃ y, seenLookup c.seen (M.hash s) = some y) (hq : s ∉ c.queue) :
    (∃ y, seenLookup c'.seen (M.hash s) = some y) ∧ s ∉ c'.queue := by
  induction hsteps with
  | refl => exact ⟨hkey, hq⟩
  | tail hab hbc ih => exact banned_estep hbc ih.1 ih.2

/-- Counter bookkeeping of one `onNewState` call: `unique = |seen|` and
`unique ≤ generated` are preserved, both counters and the seen-set length
never decrease, and the seen-set is insert-only. -/
theorem counts_onNewState {σ : Type} (M : Model σ) (c : Chk σ) (s : σ)
    (h1 : c.unique = c.seen.length) (h2 : c.unique ≤ c.generated) :
    ((onNewState M c s).chk.unique = (onNewState M c s).chk.seen.length
      ∧ (onNewState M c s).chk.unique ≤ (onNewState M c s).chk.generated)
    ∧ c.generated ≤ (onNewState M c s).chk.generated
    ∧ c.unique ≤ (onNewState M c s).chk.unique
    ∧ ∃ ext, (onNewState M c s).chk.seen = c.seen ++ ext := by
  rcases hl : seenLookup c.seen (M.hash s) with _ | x
  · rcases hi : M.satisfyInvariant s with _ | _
    · rw [onNewState_fresh_violated hl hi]
      dsimp only
      refine ⟨⟨by simp [h1], by omega⟩, by omega, by omega, [(M.hash s, s)], rfl⟩
    · rcases hc : M.satisfyConstraint s with _ | _
      · rw [onNewState_fresh_pruned hl hi hc]
        dsimp only
        refine ⟨⟨by simp [h1], by omega⟩, by omega, by omega, [(M.hash s, s)], rfl⟩
      · rw [onNewState_fresh_push hl hi hc]
        dsimp only
        refine ⟨⟨by simp [h1], by omega⟩, by omega, by omega, [(M.hash s, s)], rfl⟩
  · rw [onNewState_dup hl]
    dsimp only
    refine ⟨⟨h1, by omega⟩, by omega, by omega, [], by simp⟩

/-- Counter bookkeeping along `emitList`. -/
theorem counts_emitList {σ : Type} (M : Model σ) (c : Chk σ) (l : List σ)
    (h1 : c.unique = c.seen.length) (h2 : c.unique ≤ c.generated) :
    ((emitList M c l).chk.unique = (emitList M c l).chk.seen.length
      ∧ (emitList M c l).chk.unique ≤ (emitList M c l).chk.generated)
    ∧ c.generated ≤ (emitList M c l).chk.generated
    ∧ c.unique ≤ (emitList M c l).chk.unique
    ∧ ∃ ext, (emitList M c l).chk.seen = c.seen ++ ext := by
  induction l generalizing c with
  | nil =>
    rw [emitList_nil]
    exact ⟨⟨h1, h2⟩, le_refl _, le_refl _, [], by simp⟩
  | cons s rest ih =>
    obtain ⟨⟨k1, k2⟩, k3, k4, e1, k5⟩ := counts_onNewState M c s h1 h2
    rcases hb : (onNewState M c s).bad with _ | v
    · obtain ⟨⟨m1, m2⟩, m3, m4, e2, m5⟩ := ih (onNewState M c s).chk k1 k2
      simp only [emitList_cons, hb]
      exact ⟨⟨m1, m2⟩, le_trans k3 m3, le_trans k4 m4,
        e1 ++ e2, by rw [m5, k5, List.append_assoc]⟩
    · simp only [emitList_cons, hb]
      exact ⟨⟨k1, k2⟩, k3, k4, e1, k5⟩

/-- Counter bookkeeping along `expand`. -/
theorem counts_expand {σ : Type} (M : Model σ) (c : Chk σ) (cur : σ)
    (h1 : c.unique = c.seen.length) (h2 : c.unique ≤ c.generated) :
    ((expand M c cur).chk.unique = (expand M c cur).chk.seen.length
      ∧ (expand M c cur).chk.unique ≤ (expand M c cur).chk.generated)
    ∧ c.generated ≤ (expand M c cur).chk.generated
    ∧ c.unique ≤ (expand M c cur).chk.unique
    ∧ ∃ ext, (expand M c cur).chk.seen = c.seen ++ ext := by
  obtain ⟨⟨k1, k2⟩, k3, k4, e1, k5⟩ := counts_emitList M c
    (M.generate (M.setPrevHash cur (M.hash cur))).2 h1 h2
  rcases hb : (emitList M c (M.generate (M.setPrevHash cur (M.hash cur))).2).bad with _ | v
  · obtain ⟨⟨m1, m2⟩, m3, m4, e2, m5⟩ := counts_onNewState M
      (emitList M c (M.generate (M.setPrevHash cur (M.hash cur))).2).chk
      (M.generate (M.setPrevHash cur (M.hash cur))).1 k1 k2
    simp only [expand_eq, hb]
    exact ⟨⟨m1, m2⟩, le_trans k3 m3, le_trans k4 m4,
      e1 ++ e2, by rw [m5, k5, List.append_assoc]⟩
  · simp only [expand_eq, hb]
    exact ⟨⟨k1, k2⟩, k3, k4, e1, k5⟩

/-- Counter bookkeeping along one BFS iteration. -/
theorem counts_estep {σ : Type} {M : Model σ} {c c' : Chk σ}
    (hstep : EStep M c c')
    (h1 : c.unique = c.seen.length) (h2 : c.unique ≤ c.generated) :
    (c'.unique = c'.seen.length ∧ c'.unique ≤ c'.generated)
    ∧ c.generated ≤ c'.generated
    ∧ c.unique ≤ c'.unique
    ∧ ∃ ext, c'.seen = c.seen ++ ext := by
  rcases hstep with ⟨cur, rest, hqc, hok⟩
  exact counts_expand M _ cur h1 h2

/-- Counter bookkeeping along any number of BFS iterations. -/
theorem counts_steps {σ : Type} {M : Model σ} {c c' : Chk σ}
    (hsteps : Relation.ReflTransGen (EStep M) c c')
    (h1 : c.unique = c.seen.length) (h2 : c.unique ≤ c.generated) :
    (c'.unique = c'.seen.length ∧ c'.unique ≤ c'.generated)
    ∧ c.generated ≤ c'.generated
    ∧ c.unique ≤ c'.unique
    ∧ ∃ ext, c'.seen = c.seen ++ ext := by
  induction hsteps with
  | refl => exact ⟨⟨h1, h2⟩, le_refl _, le_refl _, [], by simp⟩
  | tail hab hbc ih =>
    obtain ⟨⟨k1, k2⟩, k3, k4, e1, k5⟩ := ih
    obtain ⟨⟨m1, m2⟩, m3, m4, e2, m5⟩ := counts_estep hbc k1 k2
    exact ⟨⟨m1, m2⟩, le_trans k3 m3, le_trans k4 m4,
      e1 ++ e2, by rw [m5, k5, List.append_assoc]⟩

/-- Unfolding equation for `traceWalk` at fuel `0`. -/
theorem traceWalk_zero {σ : Type} (M : Model σ) (seen : List (Fingerprint × σ)) (x : σ) :
    traceWalk M seen 0 x =
      if M.prevHash x = 0 then .ok [x] else .error .outOfFuel := rfl

/-- Unfolding equation for `traceWalk` at positive fuel. -/
theorem traceWalk_succ {σ : Type} (M : Model σ) (seen : List (Fingerprint × σ))
    (fuel : Nat) (x : σ) :
    traceWalk M seen (fuel + 1) x =
      if M.prevHash x = 0 then .ok [x]
      else
        match seenLookup seen (M.prevHash x) with
        | none => .error (.missingKey (M.prevHash x))
        | some p => (traceWalk M seen fuel p).map (fun l => x :: l) := rfl

/-- A state with `prevHash = 0` needs no lookup: its walk is immediate. -/
theorem traceWalk_prev_zero {σ : Type} {M : Model σ} {seen : List (Fingerprint × σ)}
    {x : σ} (h : M.prevHash x = 0) (fuel : Nat) :
    traceWalk M seen fuel x = .ok [x] := by
  cases fuel
  · rw [traceWalk_zero, if_pos h]
  · rw [traceWalk_succ, if_pos h]

/-- A successful lookup returns an entry of the list. -/
theorem seenLookup_some_mem {σ : Type} {seen : List (Fingerprint × σ)}
    {fp : Fingerprint} {y : σ} (h : seenLookup seen fp = some y) : (fp, y) ∈ seen := by
  induction seen with
  | nil => simp [seenLookup_nil] at h
  | cons a l ih =>
    obtain ⟨a1, a2⟩ := a
    rw [seenLookup_cons] at h
    dsimp only at h
    by_cases hfp : a1 = fp
    · rw [if_pos hfp] at h
      obtain rfl : a2 = y := by injection h
      subst hfp
      exact List.mem_cons_self _ _
    · rw [if_neg hfp] at h
      exact List.mem_cons_of_mem _ (ih h)

/-- A successful trace walk is unaffected by later insertions: every lookup
it makes stays the first match in the extended list. -/
theorem traceWalk_extend {σ : Type} {M : Model σ} {seen ext : List (Fingerprint × σ)} :
    ∀ {fuel : Nat} {x : σ} {l : List σ},
    traceWalk M seen fuel x = .ok l → traceWalk M (seen ++ ext) fuel x = .ok l := by
  intro fuel
  induction fuel with
  | zero =>
    intro x l h
    rw [traceWalk_zero] at h ⊢
    by_cases hp : M.prevHash x = 0
    · rw [if_pos hp] at h ⊢; exact h
    · rw [if_neg hp] at h; cases h
  | succ fuel ih =>
    intro x l h
    rw [traceWalk_succ] at h ⊢
    by_cases hp : M.prevHash x = 0
    · rw [if_pos hp] at h ⊢; exact h
    · rw [if_neg hp] at h ⊢
      rcases hl : seenLookup seen (M.prevHash x) with _ | p
      · simp only [hl] at h
        exact Except.noConfusion h
      · simp only [hl] at h
        rw [seenLookup_append_left ext hl]
        show Except.map (fun l => x :: l) (traceWalk M (seen ++ ext) fuel p) = Except.ok l
        rcases hw : traceWalk M seen fuel p with e | l'
        · rw [hw] at h; simp [Except.map] at h
        · rw [hw] at h
          rw [ih hw]
          exact h

/-- Under the chain invariant, the trace walk from any stored state
succeeds whenever the fuel covers the number of insertions: every nonzero
`prevHash` lookup finds a strictly earlier entry. -/
theorem seenChainR_walk {σ : Type} {M : Model σ} {seen : List (Fingerprint × σ)}
    (h : SeenChainR M seen) :
    ∀ kv ∈ seen, ∀ fuel, seen.length ≤ fuel → ∃ l, traceWalk M seen fuel kv.2 = .ok l := by
  induction h with
  | nil => intro kv hkv; simp at hkv
  | snoc seen s hch hfresh hprev ih =>
    intro kv hkv fuel hfuel
    have hlen : seen.length + 1 ≤ fuel := by simpa using hfuel
    rcases List.mem_append.mp hkv with hold | hnew
    · obtain ⟨l, hl⟩ := ih kv hold fuel (by omega)
      exact ⟨l, traceWalk_extend hl⟩
    · rw [List.mem_singleton] at hnew
      subst hnew
      show ∃ l, traceWalk M (seen ++ [(M.hash s, s)]) fuel s = Except.ok l
      by_cases hp : M.prevHash s = 0
      · exact ⟨[s], traceWalk_prev_zero hp fuel⟩
      · rcases hprev with h0 | ⟨y, hy⟩
        · exact absurd h0 hp
        · obtain ⟨f, rfl⟩ : ∃ f, fuel = f + 1 := ⟨fuel - 1, by omega⟩
          obtain ⟨l', hl'⟩ := ih (M.prevHash s, y) (seenLookup_some_mem hy) f (by omega)
          have hl2 : traceWalk M seen f y = Except.ok l' := hl'
          refine ⟨s :: l', ?_⟩
          rw [traceWalk_succ, if_neg hp, seenLookup_append_left _ hy]
          show Except.map (fun l => s :: l) (traceWalk M (seen ++ [(M.hash s, s)]) f y)
            = Except.ok (s :: l')
          rw [traceWalk_extend hl2]
          rfl

/-- `onNewState` preserves the chain invariant and the queue-key invariant,
provided the submitted state's `prevHash` is zero or an existing key. -/
theorem chain_onNewState {σ : Type} {M : Model σ} {c : Chk σ} {s : σ}
    (hch : SeenChainR M c.seen) (hqk : QueueKeys M c)
    (hprev : M.prevHash s = 0 ∨ ∃ y, seenLookup c.seen (M.prevHash s) = some y) :
    SeenChainR M (onNewState M c s).chk.seen ∧ QueueKeys M (onNewState M c s).chk := by
  have hqext : ∀ q, q ∈ c.queue →
      ∃ y, seenLookup (c.seen ++ [(M.hash s, s)]) (M.hash q) = some y := by
    intro q hqm
    obtain ⟨y, hy⟩ := hqk q hqm
    exact ⟨y, seenLookup_append_left _ hy⟩
  rcases hl : seenLookup c.seen (M.hash s) with _ | x
  · rcases hi : M.satisfyInvariant s with _ | _
    · rw [onNewState_fresh_violated hl hi]
      exact ⟨SeenChainR.snoc _ s hch hl hprev, fun q hqm => hqext q hqm⟩
    · rcases hc : M.satisfyConstraint s with _ | _
      · rw [onNewState_fresh_pruned hl hi hc]
        exact ⟨SeenChainR.snoc _ s hch hl hprev, fun q hqm => hqext q hqm⟩
      · rw [onNewState_fresh_push hl hi hc]
        refine ⟨SeenChainR.snoc _ s hch hl hprev, fun q hqm => ?_⟩
        rcases List.mem_append.mp hqm with hq' | hq'
        · exact hqext q hq'
        · rw [List.mem_singleton] at hq'
          subst hq'
          exact ⟨q, seenLookup_fresh_append q hl⟩
  · rw [onNewState_dup hl]
    exact ⟨hch, fun q hqm => hqk q hqm⟩

/-- `emitList` preserves both invariants, provided each submitted state's
`prevHash` is zero or a key already present before the calls. -/
theorem chain_emitList {σ : Type} {M : Model σ} {c : Chk σ} {l : List σ}
    (hch : SeenChainR M c.seen) (hqk : QueueKeys M c)
    (hprev : ∀ e ∈ l, M.prevHash e = 0 ∨ ∃ y, seenLookup c.seen (M.prevHash e) = some y) :
    SeenChainR M (emitList M c l).chk.seen ∧ QueueKeys M (emitList M c l).chk := by
  induction l generalizing c with
  | nil => rw [emitList_nil]; exact ⟨hch, hqk⟩
  | cons s rest ih =>
    obtain ⟨h1, h2⟩ := chain_onNewState hch hqk (hprev s (List.mem_cons_self _ _))
    rcases hb : (onNewState M c s).bad with _ | v
    · have hprev' : ∀ e ∈ rest, M.prevHash e = 0 ∨
          ∃ y, seenLookup (onNewState M c s).chk.seen (M.prevHash e) = some y := by
        intro e he
        rcases hprev e (List.mem_cons_of_mem _ he) with h0 | ⟨y, hy⟩
        · exact Or.inl h0
        · obtain ⟨ext, hext⟩ := onNewState_seen_extends M c s
          exact Or.inr ⟨y, by rw [hext]; exact seenLookup_append_left _ hy⟩
      have := ih h1 h2 hprev'
      simpa only [emitList_cons, hb] using this
    · simpa only [emitList_cons, hb] using ⟨h1, h2⟩

/-- `expand` preserves both invariants, provided the expanded state's
fingerprint is already a key (it was popped from the queue) and the model
contract holds for `prevHash` (`generate` restores the working state and
its emissions carry the working state's `prevHash`). -/
theorem chain_expand {σ : Type} {M : Model σ} {c : Chk σ} {cur : σ}
    (hps : ∀ s f, M.prevHash (M.setPrevHash s f) = f)
    (hgf : ∀ w, (M.generate w).1 = w)
    (hgp : ∀ w e, e ∈ (M.generate w).2 → M.prevHash e = M.prevHash w)
    (hch : SeenChainR M c.seen) (hqk : QueueKeys M c)
    (hcur : ∃ y, seenLookup c.seen (M.hash cur) = some y) :
    SeenChainR M (expand M c cur).chk.seen ∧ QueueKeys M (expand M c cur).chk := by
  have hprev : ∀ e ∈ (M.generate (M.setPrevHash cur (M.hash cur))).2,
      M.prevHash e = 0 ∨ ∃ y, seenLookup c.seen (M.prevHash e) = some y := by
    intro e he
    rw [hgp _ e he, hps cur (M.hash cur)]
    exact Or.inr hcur
  obtain ⟨h1, h2⟩ := chain_emitList hch hqk hprev
  rcases hb : (emitList M c (M.generate (M.setPrevHash cur (M.hash cur))).2).bad with _ | v
  · have hprevEnd : M.prevHash (M.generate (M.setPrevHash cur (M.hash cur))).1 = 0 ∨
        ∃ y, seenLookup (emitList M c (M.generate (M.setPrevHash cur (M.hash cur))).2).chk.seen
          (M.prevHash (M.generate (M.setPrevHash cur (M.hash cur))).1) = some y := by
      rw [hgf, hps cur (M.hash cur)]
      obtain ⟨y, hy⟩ := hcur
      obtain ⟨ext, hext⟩ := emitList_seen_extends M c
        (M.generate (M.setPrevHash cur (M.hash cur))).2
      exact Or.inr ⟨y, by rw [hext]; exact seenLookup_append_left _ hy⟩
    have := chain_onNewState h1 h2 hprevEnd
    simpa only [expand_eq, hb] using this
  · simpa only [expand_eq, hb] using ⟨h1, h2⟩

/-- `runLoop` preserves the chain invariant up to and including its final
checker state (also when it stops at a violation). -/
theorem chain_runLoop {σ : Type} {M : Model σ}
    (hps : ∀ s f, M.prevHash (M.setPrevHash s f) = f)
    (hgf : ∀ w, (M.generate w).1 = w)
    (hgp : ∀ w e, e ∈ (M.generate w).2 → M.prevHash e = M.prevHash w) :
    ∀ (fuel : Nat) (c c' : Chk σ) (out : List (OutEvent σ)) (bad : Option σ),
    SeenChainR M c.seen → QueueKeys M c →
    runLoop M fuel c = some (c', out, bad) →
    SeenChainR M c'.seen := by
  intro fuel
  induction fuel with
  | zero =>
    intro c c' out bad hch hqk h
    rw [runLoop_zero] at h
    rcases hq : c.queue with _ | ⟨cur, rest⟩ <;> rw [hq] at h
    · obtain ⟨rfl, _, _⟩ : c = c' ∧ [] = out ∧ none = bad := by
        simpa using h
      exact hch
    · simp at h
  | succ fuel ih =>
    intro c c' out bad hch hqk h
    rw [runLoop_succ] at h
    rcases hq : c.queue with _ | ⟨cur, rest⟩ <;> rw [hq] at h
    · obtain ⟨rfl, _, _⟩ : c = c' ∧ [] = out ∧ none = bad := by
        simpa using h
      exact hch
    · dsimp only at h
      have hcur : ∃ y, seenLookup c.seen (M.hash cur) = some y :=
        hqk cur (by rw [hq]; exact List.mem_cons_self _ _)
      have hqk' : QueueKeys M { c with queue := rest } := by
        intro q hqm
        exact hqk q (by rw [hq]; exact List.mem_cons_of_mem _ hqm)
      obtain ⟨h1, h2⟩ := chain_expand (c := { c with queue := rest })
        hps hgf hgp hch hqk' hcur
      rcases hb : (expand M { c with queue := rest } cur).bad with _ | v <;> rw [hb] at h
      · dsimp only at h
        rcases hrl : runLoop M fuel (expand M { c with queue := rest } cur).chk
          with _ | ⟨c2, out2, bad2⟩ <;> rw [hrl] at h
        · simp at h
        · simp only [Option.map_some', Option.some.injEq, Prod.mk.injEq] at h
          obtain ⟨rfl, _, _⟩ := h
          exact ih _ _ _ _ h1 h2 hrl
      · simp only [Option.some.injEq, Prod.mk.injEq] at h
        obtain ⟨rfl, _, _⟩ := h
        exact h1

/-- Any returning `run` leaves a seen-set satisfying the chain invariant
(model contract for `prevHash` plus zero `prevHash` on the initial
states). -/
theorem chain_run {σ : Type} {M : Model σ} {fuel : Nat} {inits : List σ}
    {c : Chk σ} {out : List (OutEvent σ)} {bad : Option σ}
    (hps : ∀ s f, M.prevHash (M.setPrevHash s f) = f)
    (hgf : ∀ w, (M.generate w).1 = w)
    (hgp : ∀ w e, e ∈ (M.generate w).2 → M.prevHash e = M.prevHash w)
    (hinit : ∀ s ∈ inits, M.prevHash s = 0)
    (hrun : run M fuel inits = some (c, out, bad)) :
    SeenChainR M c.seen := by
  rw [run_eq] at hrun
  have hch0 : SeenChainR M ({} : Chk σ).seen := SeenChainR.nil
  have hqk0 : QueueKeys M ({} : Chk σ) := by
    intro q hq
    simp [Chk.queue] at hq
  obtain ⟨h1, h2⟩ := chain_emitList hch0 hqk0
    (fun e he => Or.inl (hinit e he))
  rcases hb : (emitList M ({} : Chk σ) inits).bad with _ | v <;> rw [hb] at hrun
  · dsimp only at hrun
    rcases hrl : runLoop M fuel (emitList M ({} : Chk σ) inits).chk
      with _ | ⟨c2, out2, bad2⟩ <;> rw [hrl] at hrun
    · simp at hrun
    · simp only [Option.map_some', Option.some.injEq, Prod.mk.injEq] at hrun
      obtain ⟨rfl, _, _⟩ := hrun
      exact chain_runLoop hps hgf hgp _ _ _ _ _ h1 h2 hrl
  · simp only [Option.map_some', Option.some.injEq, Prod.mk.injEq] at hrun
    obtain ⟨rfl, _, _⟩ := hrun
    exact h1

/-! ## Lemmas for the breadth-first-depth analysis (C2) -/

theorem normSt_idem {σ : Type} {M : Model σ} (hc : Contract M) (s : σ) :
    normSt M (normSt M s) = normSt M s := hc.set_set s 0 0

theorem normSt_setPrevHash {σ : Type} {M : Model σ} (hc : Contract M) (s : σ) (f : Fingerprint) :
    normSt M (M.setPrevHash s f) = normSt M s := hc.set_set s f 0

theorem hash_normSt {σ : Type} {M : Model σ} (hc : Contract M) (s : σ) :
    M.hash (normSt M s) = M.hash s := hc.hash_set s 0

theorem expandableB_normSt {σ : Type} {M : Model σ} (hc : Contract M) (s : σ) :
    expandableB M (normSt M s) = expandableB M s := by
  unfold expandableB normSt
  rw [hc.inv_set, hc.con_set]

/-- The engine's emit-transitions out of `s` are the normalised emissions of
`generate` on `s` itself (whatever `prevHash` the working copy carries, the
contract erases it). -/
theorem succsOf_eq_norm_emits {σ : Type} {M : Model σ} (hc : Contract M) (s : σ) :
    succsOf M s = ((M.generate s).2).map (normSt M) := by
  unfold succsOf
  rw [hc.gen_set, List.map_map]
  apply List.map_congr_left
  intro e he
  simp only [Function.comp]
  exact hc.set_set e (M.hash s) 0

/-- Logically equal states have the same emit-transitions. -/
theorem succsOf_congr {σ : Type} {M : Model σ} (hc : Contract M) {s t : σ}
    (h : normSt M s = normSt M t) : succsOf M s = succsOf M t := by
  unfold succsOf
  have hh : M.hash s = M.hash t := by
    rw [← hash_normSt hc s, ← hash_normSt hc t, h]
  have harg : M.setPrevHash s (M.hash s) = M.setPrevHash t (M.hash t) := by
    rw [← hc.set_set s 0 (M.hash s), ← hc.set_set t 0 (M.hash t)]
    show M.setPrevHash (normSt M s) _ = M.setPrevHash (normSt M t) _
    rw [h, hh]
  rw [harg]

theorem mem_reachList_zero {σ : Type} [DecidableEq σ] {M : Model σ} {pruned : Bool}
    {inits : List σ} {t : σ} :
    t ∈ reachList M pruned inits 0 ↔ ∃ s ∈ inits, normSt M s = t := by
  simp [reachList, normSt]

theorem reachList_succ_eq {σ : Type} [DecidableEq σ] (M : Model σ) (pruned : Bool)
    (inits : List σ) (n : Nat) :
    reachList M pruned inits (n + 1) =
      (reachList M pruned inits n ++
        ((reachList M pruned inits n).filter
          (fun s => !pruned || expandableB M s)).flatMap (succsOf M)).dedup := rfl

theorem mem_reachList_succ {σ : Type} [DecidableEq σ] {M : Model σ}
    {inits : List σ} {t : σ} {n : Nat} :
    t ∈ reachList M true inits (n + 1) ↔
      t ∈ reachList M true inits n
      ∨ ∃ s ∈ reachList M true inits n, expandableB M s = true ∧ t ∈ succsOf M s := by
  rw [reachList_succ_eq, List.mem_dedup, List.mem_append, List.mem_flatMap]
  simp only [List.mem_filter, Bool.not_true, Bool.false_or]
  tauto

theorem reachList_mono_succ {σ : Type} [DecidableEq σ] {M : Model σ} {pruned : Bool}
    {inits : List σ} {t : σ} {n : Nat}
    (h : t ∈ reachList M pruned inits n) : t ∈ reachList M pruned inits (n + 1) := by
  rw [reachList_succ_eq, List.mem_dedup, List.mem_append]
  exact Or.inl h

theorem reachList_mono {σ : Type} [DecidableEq σ] {M : Model σ} {pruned : Bool}
    {inits : List σ} {t : σ} {m n : Nat} (hmn : m ≤ n)
    (h : t ∈ reachList M pruned inits m) : t ∈ reachList M pruned inits n := by
  induction n with
  | zero => rw [Nat.le_zero] at hmn; rwa [hmn] at h
  | succ n ih =>
    rcases Nat.lt_or_ge m (n + 1) with hlt | hge
    · exact reachList_mono_succ (ih (by omega))
    · obtain rfl : m = n + 1 := by omega
      exact h

theorem reachList_normed {σ : Type} [DecidableEq σ] {M : Model σ} {pruned : Bool}
    {inits : List σ} (hc : Contract M) {t : σ} {n : Nat}
    (h : t ∈ reachList M pruned inits n) : normSt M t = t := by
  induction n with
  | zero =>
    obtain ⟨s, _, rfl⟩ := mem_reachList_zero.mp h
    exact normSt_idem hc s
  | succ n ih =>
    rw [reachList_succ_eq, List.mem_dedup, List.mem_append] at h
    rcases h with h' | h'
    · exact ih h'
    · rw [List.mem_flatMap] at h'
      obtain ⟨s, _, hts⟩ := h'
      unfold succsOf at hts
      rw [List.mem_map] at hts
      obtain ⟨e, _, rfl⟩ := hts
      exact hc.set_set e 0 0

theorem isDepth_le {σ : Type} [DecidableEq σ] {M : Model σ} {pruned : Bool}
    {inits : List σ} {d m : Nat} {t : σ}
    (h : IsDepth M pruned inits d t) (hm : t ∈ reachList M pruned inits m) : d ≤ m := by
  by_contra hlt
  exact h.2 m (by omega) hm

theorem isDepth_unique {σ : Type} [DecidableEq σ] {M : Model σ} {pruned : Bool}
    {inits : List σ} {d d' : Nat} {t : σ}
    (h : IsDepth M pruned inits d t) (h' : IsDepth M pruned inits d' t) : d = d' :=
  Nat.le_antisymm (isDepth_le h h'.1) (isDepth_le h' h.1)

theorem isDepth_exists {σ : Type} [DecidableEq σ] {M : Model σ} {pruned : Bool}
    {inits : List σ} {n : Nat} {t : σ}
    (h : t ∈ reachList M pruned inits n) :
    ∃ d, IsDepth M pruned inits d t ∧ d ≤ n := by
  have hex : ∃ m, t ∈ reachList M pruned inits m := ⟨n, h⟩
  refine ⟨Nat.find hex, ⟨Nat.find_spec hex, fun m hm => Nat.find_min hex hm⟩,
    Nat.find_min' hex h⟩

theorem seenLookup_none_iff {σ : Type} {seen : List (Fingerprint × σ)} {fp : Fingerprint} :
    seenLookup seen fp = none ↔ fp ∉ seen.map Prod.fst := by
  induction seen with
  | nil => simp [seenLookup_nil]
  | cons a l ih =>
    rw [seenLookup_cons]
    by_cases hfp : a.1 = fp
    · simp [hfp]
    · simp only [if_neg hfp, List.map_cons, List.mem_cons, ih]
      constructor
      · intro h hmem
        rcases hmem with h' | h'
        · exact hfp h'.symm
        · exact h h'
      · intro h h'
        exact h (Or.inr h')

theorem seenLookup_of_mem_nodup {σ : Type} {seen : List (Fingerprint × σ)}
    {fp : Fingerprint} {y : σ}
    (hmem : (fp, y) ∈ seen) (hnd : (seen.map Prod.fst).Nodup) :
    seenLookup seen fp = some y := by
  induction seen with
  | nil => simp at hmem
  | cons a l ih =>
    obtain ⟨a1, a2⟩ := a
    rw [List.map_cons, List.nodup_cons] at hnd
    rw [seenLookup_cons]
    dsimp only
    rcases List.mem_cons.mp hmem with h | h
    · obtain ⟨rfl, rfl⟩ : a1 = fp ∧ a2 = y := by
        injection h.symm with h1 h2
        exact ⟨h1, h2⟩
      rw [if_pos rfl]
    · have hne : a1 ≠ fp := by
        intro heq
        subst heq
        exact hnd.1 (by
          rw [List.mem_map]
          exact ⟨(a1, y), h, rfl⟩)
      rw [if_neg hne]
      exact ih h hnd.2

theorem onNewState_ok_out {σ : Type} {M : Model σ} {c : Chk σ} {s : σ}
    (h : (onNewState M c s).bad = none) : (onNewState M c s).out = [] := by
  rcases hl : seenLookup c.seen (M.hash s) with _ | x
  · rcases hi : M.satisfyInvariant s with _ | _
    · rw [onNewState_fresh_violated hl hi] at h
      cases h
    · rcases hcn : M.satisfyConstraint s with _ | _
      · rw [onNewState_fresh_pruned hl hi hcn]
      · rw [onNewState_fresh_push hl hi hcn]
  · rw [onNewState_dup hl]

theorem emitList_ok_out {σ : Type} {M : Model σ} {c : Chk σ} {l : List σ}
    (h : (emitList M c l).bad = none) : (emitList M c l).out = [] := by
  induction l generalizing c with
  | nil => rw [emitList_nil]
  | cons s rest ih =>
    rcases hb : (onNewState M c s).bad with _ | v
    · simp only [emitList_cons, hb] at h ⊢
      rw [onNewState_ok_out hb, ih h]
      rfl
    · simp only [emitList_cons, hb] at h
      cases h

theorem expand_ok_out {σ : Type} {M : Model σ} {c : Chk σ} {cur : σ}
    (h : (expand M c cur).bad = none) : (expand M c cur).out = [] := by
  rcases hb : (emitList M c (M.generate (M.setPrevHash cur (M.hash cur))).2).bad with _ | v
  · simp only [expand_eq, hb] at h ⊢
    rw [emitList_ok_out hb, onNewState_ok_out h]
    rfl
  · simp only [expand_eq, hb] at h
    cases h

theorem countTrace_nil {σ : Type} : countTrace ([] : List (OutEvent σ)) = 0 := rfl

theorem countTrace_append {σ : Type} (a b : List (OutEvent σ)) :
    countTrace (a ++ b) = countTrace a + countTrace b := by
  unfold countTrace
  exact List.countP_append _ _ _

/-- Value-level injectivity of the ledger: distinct hash keys force
distinct entries. -/
theorem led_inj {σ : Type} {M : Model σ} {led : List (σ × Nat)}
    (hnd : (led.map (fun p => M.hash p.1)).Nodup) {p q : σ × Nat}
    (hp : p ∈ led) (hq : q ∈ led) (h : M.hash p.1 = M.hash q.1) : p = q :=
  List.inj_on_of_nodup_map hnd hp hq h

/-- The heart of the breadth-first argument: while expanding the queue head
`cur` (of depth `k`), any state `v` that is still missing from the seen-set
and whose logical content is an emit-successor of `cur` has breadth-first
depth exactly `k + 1`.  Upper bound: the edge `cur → v`.  Lower bound: every
logical state of depth `≤ k` is already in the seen-set, because walking a
shorter path hits either an already-expanded state (whose successors are all
seen), a queued state (depth `≥ k`, too deep for the path), or `cur` itself
(depth `k`, likewise too deep). -/
theorem fresh_succ_depth {σ : Type} [DecidableEq σ] {M : Model σ} {inits : List σ}
    {cur : σ} {k : Nat} {c : Chk σ} {led qled : List (σ × Nat)} {es : List σ}
    (hc : Contract M) (hg : GoodHash M)
    (hm : MidInv M inits cur k c led qled es)
    {v : σ}
    (hfresh : seenLookup c.seen (M.hash v) = none)
    (hsucc : normSt M v ∈ succsOf M cur) :
    IsDepth M true inits (k + 1) (normSt M v) := by
  have hdcur : IsDepth M true inits k (normSt M cur) := hm.depth (cur, k) hm.curled
  have hupper : normSt M v ∈ reachList M true inits (k + 1) := by
    refine mem_reachList_succ.mpr (Or.inr ⟨normSt M cur, hdcur.1, ?_, ?_⟩)
    · rw [expandableB_normSt hc cur]
      exact hm.curexp
    · rw [succsOf_congr hc (normSt_idem hc cur)]
      exact hsucc
  have star : ∀ m, m ≤ k → ∀ t, t ∈ reachList M true inits m →
      ∃ y, seenLookup c.seen (M.hash t) = some y := by
    intro m
    induction m with
    | zero =>
      intro _ t ht
      obtain ⟨s, hs, rfl⟩ := mem_reachList_zero.mp ht
      obtain ⟨y, hy⟩ := hm.initsSeen s hs
      exact ⟨y, by rw [hash_normSt hc]; exact hy⟩
    | succ m ih =>
      intro hmk t ht
      rcases mem_reachList_succ.mp ht with ht' | ⟨u, hu, huexp, htu⟩
      · exact ih (by omega) t ht'
      · obtain ⟨yu, hyu⟩ := ih (by omega) u hu
        have hmemseen : (M.hash u, yu) ∈ c.seen := seenLookup_some_mem hyu
        rw [hm.seen_eq, List.mem_map] at hmemseen
        obtain ⟨p, hpled, hpeq⟩ := hmemseen
        have hhash : M.hash p.1 = M.hash u := by injection hpeq
        have hnormu : normSt M u = u := reachList_normed hc hu
        have hnp : normSt M p.1 = u := by
          have hcf := hg.cf p.1 u hhash
          show M.setPrevHash p.1 0 = u
          rw [hcf]
          exact hnormu
        have hdp := hm.depth p hpled
        have hdple : p.2 ≤ m := isDepth_le hdp (by rw [hnp]; exact hu)
        have hsp : t ∈ succsOf M p.1 := by
          rw [succsOf_congr hc (s := p.1) (t := u) (by rw [hnp, hnormu])]
          exact htu
        have hexp : expandableB M p.1 = true := by
          rw [← expandableB_normSt hc p.1, hnp, ← hnormu, expandableB_normSt hc u]
          exact huexp
        by_cases hcurq : p.1 = cur
        · exfalso
          have hkm : k ≤ m := by
            apply isDepth_le hdcur
            rw [show normSt M cur = u from by rw [← hcurq]; exact hnp]
            exact hu
          omega
        · by_cases hq : p.1 ∈ c.queue
          · exfalso
            rw [hm.queue_eq, List.mem_map] at hq
            obtain ⟨pq, hpq, hpq1⟩ := hq
            have hpqled : pq ∈ led := hm.qsub.subset hpq
            have hinj : pq = p := led_inj hm.nodup hpqled hpled (by rw [hpq1])
            have hkq := hm.qdepth pq hpq
            rw [hinj] at hkq
            omega
          · exact hm.closure p hpled hexp hq hcurq t hsp
  refine ⟨hupper, ?_⟩
  intro m hmlt hmem
  obtain ⟨y, hy⟩ := star m (by omega) _ hmem
  rw [hash_normSt hc, hfresh] at hy
  cases hy

/-- Number of trace lines printed for a successfully reconstructed trace. -/
theorem countTrace_violation {σ : Type} (l : List σ) :
    countTrace (OutEvent.violated :: traceEvents (Except.ok l)) = l.length := by
  unfold countTrace traceEvents
  rw [List.countP_cons_of_neg _ _ (by simp)]
  rw [List.countP_eq_length.mpr]
  · rw [List.length_map, List.enum_length]
  · intro e he
    rw [List.mem_map] at he
    obtain ⟨p, _, rfl⟩ := he
    rfl

/-- `MidInv` only looks at the seen-set and the queue of the checker
state. -/
theorem midInv_congr {σ : Type} [DecidableEq σ] {M : Model σ} {inits : List σ}
    {cur : σ} {k : Nat} {c c' : Chk σ} {led qled : List (σ × Nat)} {es : List σ}
    (hs : c'.seen = c.seen) (hq : c'.queue = c.queue)
    (h : MidInv M inits cur k c led qled es) :
    MidInv M inits cur k c' led qled es := by
  obtain ⟨h1, h2, h3, h4, h5, h6, h7, h8, h9, h10, h11, h12, h13, h14, h15, h16, h17⟩ := h
  exact ⟨by rw [hs, h1], by rw [hq, h2], h3, h4, h5,
    by rw [hs]; exact h6, h7, h8,
    by rw [hs, hq]; exact h9, h10, h11, h12, h13,
    by rw [hq]; exact h14, h15,
    by rw [hs]; exact h16, by rw [hs]; exact h17⟩

/-- `BfsInv` only looks at the seen-set and the queue of the checker
state. -/
theorem bfsInv_congr {σ : Type} [DecidableEq σ] {M : Model σ} {inits : List σ}
    {c c' : Chk σ} {led qled : List (σ × Nat)}
    (hs : c'.seen = c.seen) (hq : c'.queue = c.queue)
    (h : BfsInv M inits c led qled) :
    BfsInv M inits c' led qled := by
  obtain ⟨h1, h2, h3, h4, h5, h6, h7, h8, h9, h10, h11⟩ := h
  exact ⟨by rw [hs, h1], by rw [hq, h2], h3, h4, h5,
    by rw [hs]; exact h6, h7, h8,
    by rw [hs, hq]; exact h9, h10, by rw [hs]; exact h11⟩

/-- The seen-set's key column is the ledger's hash column. -/
theorem seen_map_fst {σ : Type} {M : Model σ} {c : Chk σ} {led : List (σ × Nat)}
    (hse : c.seen = led.map (fun p => (M.hash p.1, p.1))) :
    c.seen.map Prod.fst = led.map (fun p => M.hash p.1) := by
  rw [hse, List.map_map]
  rfl

/-- Looking up a ledger entry's key returns exactly its state. -/
theorem ledger_lookup {σ : Type} {M : Model σ} {c : Chk σ} {led : List (σ × Nat)}
    (hse : c.seen = led.map (fun p => (M.hash p.1, p.1)))
    (hnd : (led.map (fun p => M.hash p.1)).Nodup)
    {p : σ × Nat} (hp : p ∈ led) :
    seenLookup c.seen (M.hash p.1) = some p.1 := by
  apply seenLookup_of_mem_nodup
  · rw [hse, List.mem_map]
    exact ⟨p, hp, rfl⟩
  · rw [seen_map_fst hse]
    exact hnd

/-- The walk from a freshly inserted emission of `cur` is the emission
followed by the stored walk of `cur`: length `k + 2`. -/
theorem walk_new {σ : Type} [DecidableEq σ] {M : Model σ} {inits : List σ}
    {cur : σ} {k : Nat} {c : Chk σ} {led qled : List (σ × Nat)} {es : List σ}
    (hg : GoodHash M)
    (hm : MidInv M inits cur k c led qled es)
    {e : σ} (hprev : M.prevHash e = M.hash cur) :
    ∀ fuel, led.length + 1 ≤ fuel →
      ∃ l, traceWalk M (c.seen ++ [(M.hash e, e)]) fuel e = Except.ok l
        ∧ l.length = k + 2 := by
  intro fuel hfuel
  obtain ⟨f, rfl⟩ : ∃ f, fuel = f + 1 := ⟨fuel - 1, by omega⟩
  have hnz : M.prevHash e ≠ 0 := by
    rw [hprev]
    exact hg.nz cur
  have hlk : seenLookup c.seen (M.hash cur) = some cur :=
    ledger_lookup hm.seen_eq hm.nodup hm.curled
  obtain ⟨l, hl, hlen⟩ := hm.walk (cur, k) hm.curled f (by omega)
  refine ⟨e :: l, ?_, by simpa using hlen⟩
  rw [traceWalk_succ, if_neg hnz, hprev, seenLookup_append_left _ hlk]
  show Except.map (fun l => e :: l) (traceWalk M (c.seen ++ [(M.hash e, e)]) f cur)
    = Except.ok (e :: l)
  rw [traceWalk_extend hl]
  rfl

/-- A duplicate emission changes only `generated`: the mid-expansion
invariant carries over to the remaining emissions. -/
theorem mid_dup {σ : Type} [DecidableEq σ] {M : Model σ} {inits : List σ}
    {cur : σ} {k : Nat} {c : Chk σ} {led qled : List (σ × Nat)} {e : σ} {es : List σ}
    (hc : Contract M)
    (hm : MidInv M inits cur k c led qled (e :: es))
    {x : σ} (hdup : seenLookup c.seen (M.hash e) = some x) :
    (onNewState M c e).bad = none
    ∧ MidInv M inits cur k (onNewState M c e).chk led qled es := by
  rw [onNewState_dup hdup]
  refine ⟨rfl, ?_⟩
  have hm' : MidInv M inits cur k { c with generated := c.generated + 1 } led qled
      (e :: es) :=
    midInv_congr (c := c) rfl rfl hm
  obtain ⟨h1, h2, h3, h4, h5, h6, h7, h8, h9, h10, h11, h12, h13, h14, h15, h16, h17⟩ := hm'
  refine ⟨h1, h2, h3, h4, h5, h6, h7, h8, h9, h10, h11, h12, h13, h14,
    fun e' he' => h15 e' (List.mem_cons_of_mem _ he'), ?_, h17⟩
  intro t ht htn
  by_cases hte : t = normSt M e
  · subst hte
    exact ⟨x, by rw [hash_normSt hc]; exact hdup⟩
  · apply h16 t ht
    rw [List.map_cons, List.mem_cons]
    rintro (h' | h')
    · exact hte h'
    · exact htn h'

/-- A fresh emission passing the invariant is admitted at depth `k + 1`
(enqueued or not according to the constraint); the mid-expansion invariant
carries over with the extended ledger. -/
theorem mid_fresh_ok {σ : Type} [DecidableEq σ] {M : Model σ} {inits : List σ}
    {cur : σ} {k : Nat} {c : Chk σ} {led qled : List (σ × Nat)} {e : σ} {es : List σ}
    (hc : Contract M) (hg : GoodHash M)
    (hm : MidInv M inits cur k c led qled (e :: es))
    (hfresh : seenLookup c.seen (M.hash e) = none)
    (hinv : M.satisfyInvariant e = true) :
    (onNewState M c e).bad = none
    ∧ ∃ qled', MidInv M inits cur k (onNewState M c e).chk (led ++ [(e, k + 1)]) qled' es := by
  obtain ⟨hprev, hsucc⟩ := hm.emits e (List.mem_cons_self _ _)
  have hdepth : IsDepth M true inits (k + 1) (normSt M e) :=
    fresh_succ_depth hc hg hm hfresh hsucc
  have hne_cur : e ≠ cur := by
    intro h
    rw [h, ledger_lookup hm.seen_eq hm.nodup hm.curled] at hfresh
    cases hfresh
  have hkeyfresh : M.hash e ∉ led.map (fun p => M.hash p.1) := by
    rw [← seen_map_fst hm.seen_eq]
    exact seenLookup_none_iff.mp hfresh
  have Aseen : c.seen ++ [(M.hash e, e)]
      = (led ++ [(e, k + 1)]).map (fun p => (M.hash p.1, p.1)) := by
    rw [List.map_append, hm.seen_eq]
    rfl
  have Anodup : ((led ++ [(e, k + 1)]).map (fun p => M.hash p.1)).Nodup := by
    rw [List.map_append]
    rw [List.nodup_append]
    refine ⟨hm.nodup, List.nodup_singleton _, ?_⟩
    intro a ha hb
    rw [List.map_singleton, List.mem_singleton] at hb
    subst hb
    exact hkeyfresh ha
  have Adepth : ∀ p ∈ led ++ [(e, k + 1)], IsDepth M true inits p.2 (normSt M p.1) := by
    intro p hp
    rcases List.mem_append.mp hp with hp | hp
    · exact hm.depth p hp
    · rw [List.mem_singleton] at hp
      subst hp
      exact hdepth
  have Awalk : ∀ p ∈ led ++ [(e, k + 1)], ∀ fuel, (led ++ [(e, k + 1)]).length ≤ fuel →
      ∃ l, traceWalk M (c.seen ++ [(M.hash e, e)]) fuel p.1 = Except.ok l
        ∧ l.length = p.2 + 1 := by
    intro p hp fuel hfuel
    rw [List.length_append, List.length_singleton] at hfuel
    rcases List.mem_append.mp hp with hp | hp
    · obtain ⟨l, hl, hlen⟩ := hm.walk p hp fuel (by omega)
      exact ⟨l, traceWalk_extend hl, hlen⟩
    · rw [List.mem_singleton] at hp
      subst hp
      obtain ⟨l, hl, hlen⟩ := walk_new hg hm hprev fuel (by omega)
      exact ⟨l, hl, by rw [hlen]⟩
  have Amono : ((led ++ [(e, k + 1)]).map Prod.snd).Pairwise (· ≤ ·) := by
    rw [List.map_append]
    rw [List.pairwise_append]
    refine ⟨hm.mono, List.pairwise_singleton _ _, ?_⟩
    intro a ha b hb
    rw [List.map_singleton, List.mem_singleton] at hb
    subst hb
    rw [List.mem_map] at ha
    obtain ⟨p, hp, rfl⟩ := ha
    exact hm.bound p hp
  have Abound : ∀ p ∈ led ++ [(e, k + 1)], p.2 ≤ k + 1 := by
    intro p hp
    rcases List.mem_append.mp hp with hp | hp
    · exact hm.bound p hp
    · rw [List.mem_singleton] at hp
      subst hp
      exact Nat.le_refl _
  have Acurled : (cur, k) ∈ led ++ [(e, k + 1)] :=
    List.mem_append_left _ hm.curled
  have Aemits : ∀ e' ∈ es, M.prevHash e' = M.hash cur ∧ normSt M e' ∈ succsOf M cur :=
    fun e' he' => hm.emits e' (List.mem_cons_of_mem _ he')
  have Adone : ∀ t ∈ succsOf M cur, t ∉ es.map (normSt M) →
      ∃ y, seenLookup (c.seen ++ [(M.hash e, e)]) (M.hash t) = some y := by
    intro t ht htn
    by_cases hte : t = normSt M e
    · subst hte
      refine ⟨e, ?_⟩
      rw [hash_normSt hc]
      exact seenLookup_fresh_append e hfresh
    · obtain ⟨y, hy⟩ := hm.done t ht (by
        rw [List.map_cons, List.mem_cons]
        rintro (h' | h')
        · exact hte h'
        · exact htn h')
      exact ⟨y, seenLookup_append_left _ hy⟩
  have AinitsSeen : ∀ s ∈ inits,
      ∃ y, seenLookup (c.seen ++ [(M.hash e, e)]) (M.hash s) = some y := by
    intro s hs
    obtain ⟨y, hy⟩ := hm.initsSeen s hs
    exact ⟨y, seenLookup_append_left _ hy⟩
  rcases hcon : M.satisfyConstraint e with _ | _
  · rw [onNewState_fresh_pruned hfresh hinv hcon]
    refine ⟨rfl, qled, Aseen, hm.queue_eq, hm.qsub.trans (List.sublist_append_left _ _),
      Anodup, Adepth, Awalk, Amono, hm.qexp, ?_, Abound, hm.qdepth,
      Acurled, hm.curexp, hm.curnotq, Aemits, Adone, AinitsSeen⟩
    intro p hp hpe hpq hpc t ht
    rcases List.mem_append.mp hp with hp | hp
    · obtain ⟨y, hy⟩ := hm.closure p hp hpe hpq hpc t ht
      exact ⟨y, seenLookup_append_left _ hy⟩
    · rw [List.mem_singleton] at hp
      subst hp
      exfalso
      rw [expandableB, hinv, hcon] at hpe
      cases hpe
  · rw [onNewState_fresh_push hfresh hinv hcon]
    refine ⟨rfl, qled ++ [(e, k + 1)], Aseen, ?_,
      hm.qsub.append (List.Sublist.refl _),
      Anodup, Adepth, Awalk, Amono, ?_, ?_, Abound, ?_,
      Acurled, hm.curexp, ?_, Aemits, Adone, AinitsSeen⟩
    · rw [List.map_append, hm.queue_eq]
      rfl
    · intro p hp
      rcases List.mem_append.mp hp with hp | hp
      · exact hm.qexp p hp
      · rw [List.mem_singleton] at hp
        subst hp
        rw [expandableB, hinv, hcon]
        rfl
    · intro p hp hpe hpq hpc t ht
      have hpq' : p.1 ∉ c.queue := by
        intro h'
        exact hpq (List.mem_append_left _ h')
      rcases List.mem_append.mp hp with hp | hp
      · obtain ⟨y, hy⟩ := hm.closure p hp hpe hpq' hpc t ht
        exact ⟨y, seenLookup_append_left _ hy⟩
      · rw [List.mem_singleton] at hp
        subst hp
        exfalso
        exact hpq (List.mem_append_right _ (List.mem_singleton_self _))
    · intro p hp
      rcases List.mem_append.mp hp with hp | hp
      · exact hm.qdepth p hp
      · rw [List.mem_singleton] at hp
        subst hp
        omega
    · intro h'
      rcases List.mem_append.mp h' with h' | h'
      · exact hm.curnotq h'
      · rw [List.mem_singleton] at h'
        exact hne_cur h'.symm

/-- A fresh emission failing the invariant throws, with a printed trace of
exactly `k + 2` states, and its logical content has depth `k + 1`. -/
theorem mid_violated {σ : Type} [DecidableEq σ] {M : Model σ} {inits : List σ}
    {cur : σ} {k : Nat} {c : Chk σ} {led qled : List (σ × Nat)} {e : σ} {es : List σ}
    (hc : Contract M) (hg : GoodHash M)
    (hm : MidInv M inits cur k c led qled (e :: es))
    (hfresh : seenLookup c.seen (M.hash e) = none)
    (hinv : M.satisfyInvariant e = false) :
    (onNewState M c e).bad = some e
    ∧ IsDepth M true inits (k + 1) (normSt M e)
    ∧ countTrace (onNewState M c e).out = k + 2 := by
  obtain ⟨hprev, hsucc⟩ := hm.emits e (List.mem_cons_self _ _)
  have hdepth : IsDepth M true inits (k + 1) (normSt M e) :=
    fresh_succ_depth hc hg hm hfresh hsucc
  have hsl : c.seen.length = led.length := by
    rw [hm.seen_eq, List.length_map]
  obtain ⟨l, hl, hlen⟩ := walk_new hg hm hprev (c.seen.length + 1) (by omega)
  have htr : traceOf M (c.seen ++ [(M.hash e, e)]) e = Except.ok l.reverse := by
    unfold traceOf
    rw [List.length_append, List.length_singleton, hl]
    rfl
  rw [onNewState_fresh_violated hfresh hinv]
  refine ⟨rfl, hdepth, ?_⟩
  show countTrace (OutEvent.violated :: traceEvents (traceOf M (c.seen ++ [(M.hash e, e)]) e))
    = k + 2
  rw [htr, countTrace_violation, List.length_reverse, hlen]

/-- Processing the pending emissions: a violation mid-way yields a trace of
`k + 2` printed states for a state of depth `k + 1`; a clean pass leaves the
mid-expansion invariant with no pending emissions. -/
theorem emit_phase {σ : Type} [DecidableEq σ] {M : Model σ} {inits : List σ}
    {cur : σ} {k : Nat} (hc : Contract M) (hg : GoodHash M) :
    ∀ (es : List σ) (c : Chk σ) (led qled : List (σ × Nat)),
    MidInv M inits cur k c led qled es →
    ((∀ v, (emitList M c es).bad = some v →
        IsDepth M true inits (k + 1) (normSt M v)
        ∧ countTrace (emitList M c es).out = k + 2)
    ∧ ((emitList M c es).bad = none →
        ∃ led' qled', MidInv M inits cur k (emitList M c es).chk led' qled' [])) := by
  intro es
  induction es with
  | nil =>
    intro c led qled hm
    constructor
    · intro v hv
      rw [emitList_nil] at hv
      cases hv
    · intro _
      exact ⟨led, qled, hm⟩
  | cons e es ih =>
    intro c led qled hm
    rcases hl : seenLookup c.seen (M.hash e) with _ | x
    · rcases hi : M.satisfyInvariant e with _ | _
      · obtain ⟨hbad, hdep, hcount⟩ := mid_violated hc hg hm hl hi
        constructor
        · intro v hv
          simp only [emitList_cons, hbad] at hv ⊢
          obtain rfl : e = v := by injection hv
          exact ⟨hdep, hcount⟩
        · intro hnone
          simp only [emitList_cons, hbad] at hnone
          cases hnone
      · obtain ⟨hbad, qled', hm'⟩ := mid_fresh_ok hc hg hm hl hi
        have hnext := ih (onNewState M c e).chk _ qled' hm'
        constructor
        · intro v hv
          simp only [emitList_cons, hbad] at hv ⊢
          obtain ⟨hdep, hcount⟩ := hnext.1 v hv
          refine ⟨hdep, ?_⟩
          rw [countTrace_append, onNewState_ok_out hbad, countTrace_nil, Nat.zero_add]
          exact hcount
        · intro hnone
          simp only [emitList_cons, hbad] at hnone ⊢
          exact hnext.2 hnone
    · obtain ⟨hbad, hm'⟩ := mid_dup hc hm hl
      have hnext := ih (onNewState M c e).chk led qled hm'
      constructor
      · intro v hv
        simp only [emitList_cons, hbad] at hv ⊢
        obtain ⟨hdep, hcount⟩ := hnext.1 v hv
        refine ⟨hdep, ?_⟩
        rw [countTrace_append, onNewState_ok_out hbad, countTrace_nil, Nat.zero_add]
        exact hcount
      · intro hnone
        simp only [emitList_cons, hbad] at hnone ⊢
        exact hnext.2 hnone

/-- With no pending emissions, the mid-expansion invariant collapses back to
the loop invariant: `cur` is now fully expanded. -/
theorem mid_close {σ : Type} [DecidableEq σ] {M : Model σ} {inits : List σ}
    {cur : σ} {k : Nat} {c : Chk σ} {led qled : List (σ × Nat)}
    (hm : MidInv M inits cur k c led qled []) :
    BfsInv M inits c led qled := by
  refine ⟨hm.seen_eq, hm.queue_eq, hm.qsub, hm.nodup, hm.depth, hm.walk, hm.mono,
    hm.qexp, ?_, ?_, hm.initsSeen⟩
  · intro p hp hpe hpq t ht
    by_cases hpc : p.1 = cur
    · have hss : succsOf M p.1 = succsOf M cur := by rw [hpc]
      apply hm.done t (hss ▸ ht)
      simp
    · exact hm.closure p hp hpe hpq hpc t ht
  · intro pq hpq p hp
    have hq : pq ∈ qled := List.mem_of_mem_head? hpq
    have h1 := hm.qdepth pq hq
    have h2 := hm.bound p hp
    omega

/-- Popping the queue head establishes the mid-expansion invariant for the
full emission list of its `generate`. -/
theorem bfs_pop {σ : Type} [DecidableEq σ] {M : Model σ} {inits : List σ}
    {c : Chk σ} {led qrest : List (σ × Nat)} {cur : σ} {k : Nat}
    (hc : Contract M)
    (hb : BfsInv M inits c led ((cur, k) :: qrest)) :
    MidInv M inits cur k { c with queue := qrest.map Prod.fst } led qrest
      (M.generate (M.setPrevHash cur (M.hash cur))).2 := by
  have hqpair : (((cur, k) :: qrest).map Prod.snd).Pairwise (· ≤ ·) :=
    List.Pairwise.sublist (List.Sublist.map _ hb.qsub) hb.mono
  rw [List.map_cons, List.pairwise_cons] at hqpair
  have hqnodup : ((((cur, k) :: qrest)).map (fun p => M.hash p.1)).Nodup :=
    List.Nodup.sublist (List.Sublist.map _ hb.qsub) hb.nodup
  rw [List.map_cons, List.nodup_cons] at hqnodup
  have hcurled : (cur, k) ∈ led := hb.qsub.subset (List.mem_cons_self _ _)
  refine ⟨hb.seen_eq, rfl, ?_, hb.nodup, hb.depth, hb.walk, hb.mono,
    fun p hp => hb.qexp p (List.mem_cons_of_mem _ hp), ?_, ?_,
    fun p hp => hqpair.1 p.2 (List.mem_map_of_mem _ hp),
    hcurled, hb.qexp (cur, k) (List.mem_cons_self _ _), ?_, ?_, ?_, hb.initsSeen⟩
  · exact List.sublist_of_cons_sublist hb.qsub
  · intro p hp hpe hpq hpc t ht
    apply hb.closure p hp hpe ?_ t ht
    rw [hb.queue_eq, List.map_cons, List.mem_cons]
    rintro (h' | h')
    · exact hpc h'
    · exact hpq h'
  · exact hb.bound (cur, k) rfl
  · intro hmem
    rw [List.mem_map] at hmem
    obtain ⟨q, hq, hq1⟩ := hmem
    apply hqnodup.1
    rw [List.mem_map]
    exact ⟨q, hq, by rw [hq1]⟩
  · intro e he
    constructor
    · rw [hc.gen_set] at he
      obtain ⟨x, hx, rfl⟩ := List.mem_map.mp he
      exact hc.prevHash_set x (M.hash cur)
    · exact List.mem_map_of_mem _ he
  · intro t ht htn
    exact absurd ht htn

/-- One full expansion of the popped head: a violation yields the depth and
trace-length facts; a clean pass re-establishes the loop invariant (the
trailing re-submission of the restored working copy is a duplicate, since
its hash equals the head's). -/
theorem bfs_expand {σ : Type} [DecidableEq σ] {M : Model σ} {inits : List σ}
    {c : Chk σ} {led qrest : List (σ × Nat)} {cur : σ} {k : Nat}
    (hc : Contract M) (hg : GoodHash M)
    (hb : BfsInv M inits c led ((cur, k) :: qrest)) :
    (∀ v, (expand M { c with queue := qrest.map Prod.fst } cur).bad = some v →
        IsDepth M true inits (k + 1) (normSt M v)
        ∧ countTrace (expand M { c with queue := qrest.map Prod.fst } cur).out = k + 2)
    ∧ ((expand M { c with queue := qrest.map Prod.fst } cur).bad = none →
        ∃ led' qled',
          BfsInv M inits (expand M { c with queue := qrest.map Prod.fst } cur).chk led' qled') := by
  have hmid := bfs_pop hc hb
  have hep := emit_phase hc hg _ _ _ _ hmid
  rcases hbe : (emitList M { c with queue := qrest.map Prod.fst }
      (M.generate (M.setPrevHash cur (M.hash cur))).2).bad with _ | v
  · obtain ⟨led', qled', hm'⟩ := hep.2 hbe
    have hbfs := mid_close hm'
    have hwend : M.hash (M.generate (M.setPrevHash cur (M.hash cur))).1 = M.hash cur := by
      rw [hc.gen_fst, hc.hash_set]
    have hdup := onNewState_dup
      (M := M)
      (c := (emitList M { c with queue := qrest.map Prod.fst }
        (M.generate (M.setPrevHash cur (M.hash cur))).2).chk)
      (s := (M.generate (M.setPrevHash cur (M.hash cur))).1)
      (x := cur)
      (by rw [hwend]; exact ledger_lookup hm'.seen_eq hm'.nodup hm'.curled)
    constructor
    · intro v hv
      simp only [expand_eq, hbe, hdup] at hv
      cases hv
    · intro _
      simp only [expand_eq, hbe, hdup]
      exact ⟨led', qled', bfsInv_congr
        (c := (emitList M { c with queue := qrest.map Prod.fst }
          (M.generate (M.setPrevHash cur (M.hash cur))).2).chk) rfl rfl hbfs⟩
  · obtain ⟨hdep, hcnt⟩ := hep.1 v hbe
    constructor
    · intro v' hv'
      simp only [expand_eq, hbe] at hv' ⊢
      obtain rfl : v = v' := by injection hv'
      exact ⟨hdep, hcnt⟩
    · intro hnone
      simp only [expand_eq, hbe] at hnone
      cases hnone

/-- The BFS loop: starting from the loop invariant, if the loop's result is
a caught violation at state `v`, the number of trace lines printed is
exactly `depth(v) + 1`. -/
theorem bfs_runLoop {σ : Type} [DecidableEq σ] {M : Model σ} {inits : List σ}
    (hc : Contract M) (hg : GoodHash M) :
    ∀ (fuel : Nat) (c : Chk σ) (led qled : List (σ × Nat))
      (c' : Chk σ) (out : List (OutEvent σ)) (bad : Option σ),
    BfsInv M inits c led qled →
    runLoop M fuel c = some (c', out, bad) →
    ∀ v, bad = some v →
      ∃ dv, IsDepth M true inits dv (normSt M v) ∧ countTrace out = dv + 1 := by
  intro fuel
  induction fuel with
  | zero =>
    intro c led qled c' out bad hb h v hv
    rw [runLoop_zero] at h
    rcases hq : c.queue with _ | ⟨cur', rest'⟩ <;> rw [hq] at h
    · obtain ⟨_, _, hbad⟩ : c = c' ∧ [] = out ∧ none = bad := by simpa using h
      rw [← hbad] at hv
      cases hv
    · cases h
  | succ fuel ih =>
    intro c led qled c' out bad hb h v hv
    rw [runLoop_succ] at h
    rcases hq : c.queue with _ | ⟨cur', rest'⟩ <;> rw [hq] at h
    · obtain ⟨_, _, hbad⟩ : c = c' ∧ [] = out ∧ none = bad := by simpa using h
      rw [← hbad] at hv
      cases hv
    · rcases hqled : qled with _ | ⟨pq, qrest⟩
      · rw [hqled] at hb
        rw [hb.queue_eq] at hq
        cases hq
      · rw [hqled] at hb
        have hq' := hq
        rw [hb.queue_eq, List.map_cons] at hq'
        obtain ⟨hcur, hrest⟩ : pq.1 = cur' ∧ qrest.map Prod.fst = rest' := by
          injection hq' with h1 h2
          exact ⟨h1, h2⟩
        have hb2 : BfsInv M inits c led ((cur', pq.2) :: qrest) := by
          rw [← hcur]
          exact hb
        have hexp := bfs_expand hc hg hb2
        rw [hrest] at hexp
        dsimp only at h
        rcases hbex : (expand M { c with queue := rest' } cur').bad with _ | w <;>
          rw [hbex] at h
        · dsimp only at h
          rcases hrl : runLoop M fuel (expand M { c with queue := rest' } cur').chk
            with _ | ⟨c2, out2, bad2⟩ <;> rw [hrl] at h
          · cases h
          · simp only [Option.map_some', Option.some.injEq, Prod.mk.injEq] at h
            obtain ⟨hc2, hout, hbad⟩ := h
            obtain ⟨led2, qled2, hb3⟩ := hexp.2 hbex
            obtain ⟨dv, hdv, hcnt⟩ := ih _ led2 qled2 c2 out2 bad2 hb3 hrl v
              (by rw [hbad, hv])
            refine ⟨dv, hdv, ?_⟩
            rw [← hout, countTrace_append, expand_ok_out hbex, countTrace_nil,
              Nat.zero_add, hcnt]
        · simp only [Option.some.injEq, Prod.mk.injEq] at h
          obtain ⟨hc2, hout, hbad⟩ := h
          obtain rfl : w = v := by
            have h' : some w = some v := by rw [hbad, hv]
            injection h'
          obtain ⟨hdep, hcnt⟩ := hexp.1 _ hbex
          refine ⟨pq.2 + 1, hdep, ?_⟩
          rw [← hout, hcnt]

theorem pairwise_le_of_zero : ∀ (l : List Nat), (∀ x ∈ l, x = 0) → l.Pairwise (· ≤ ·) := by
  intro l
  induction l with
  | nil => intro _; exact List.Pairwise.nil
  | cons a l ih =>
    intro h
    rw [List.pairwise_cons]
    refine ⟨fun y hy => ?_, ih (fun x hx => h x (List.mem_cons_of_mem _ hx))⟩
    rw [h a (List.mem_cons_self _ _)]
    exact Nat.zero_le y

/-- Once every initial state has been submitted, the initial-phase invariant
gives the loop invariant (all depths are `0`, walks are single states). -/
theorem init_to_bfs {σ : Type} [DecidableEq σ] {M : Model σ} {inits0 : List σ}
    {c : Chk σ} {led qled : List (σ × Nat)}
    (hi : InitInv M inits0 inits0 c led qled) :
    BfsInv M inits0 c led qled := by
  refine ⟨hi.seen_eq, hi.queue_eq, hi.qsub, hi.nodup, ?_, ?_, ?_, hi.qexp, ?_, ?_,
    hi.doneSeen⟩
  · intro p hp
    rw [hi.zero p hp]
    exact ⟨hi.init0 p hp, fun m hm => absurd hm (Nat.not_lt_zero m)⟩
  · intro p hp fuel hfuel
    exact ⟨[p.1], traceWalk_prev_zero (hi.prevz p hp) fuel, by simp [hi.zero p hp]⟩
  · apply pairwise_le_of_zero
    intro x hx
    rw [List.mem_map] at hx
    obtain ⟨p, hp, rfl⟩ := hx
    exact hi.zero p hp
  · intro p hp hpe hpq
    exact (hpq (hi.allq p hp hpe)).elim
  · intro pq hpq p hp
    rw [hi.zero p hp]
    omega

/-- A duplicate initial state changes only `generated`. -/
theorem init_dup {σ : Type} [DecidableEq σ] {M : Model σ} {inits0 : List σ}
    {done : List σ} {c : Chk σ} {led qled : List (σ × Nat)} {e : σ}
    (hi : InitInv M inits0 done c led qled)
    {x : σ} (hl : seenLookup c.seen (M.hash e) = some x) :
    (onNewState M c e).bad = none
    ∧ InitInv M inits0 (done ++ [e]) (onNewState M c e).chk led qled := by
  rw [onNewState_dup hl]
  refine ⟨rfl, hi.seen_eq, hi.queue_eq, hi.qsub, hi.nodup, hi.zero, hi.init0,
    hi.prevz, hi.allq, hi.qexp, ?_⟩
  intro s hs
  rcases List.mem_append.mp hs with hs | hs
  · exact hi.doneSeen s hs
  · rw [List.mem_singleton] at hs
    subst hs
    exact ⟨x, hl⟩

/-- A fresh initial state passing the invariant is admitted at depth `0`. -/
theorem init_fresh_ok {σ : Type} [DecidableEq σ] {M : Model σ} {inits0 : List σ}
    {done : List σ} {c : Chk σ} {led qled : List (σ × Nat)} {e : σ}
    (hi : InitInv M inits0 done c led qled)
    (he0 : e ∈ inits0) (hez : M.prevHash e = 0)
    (hl : seenLookup c.seen (M.hash e) = none)
    (hinv : M.satisfyInvariant e = true) :
    (onNewState M c e).bad = none
    ∧ ∃ qled', InitInv M inits0 (done ++ [e]) (onNewState M c e).chk
        (led ++ [(e, 0)]) qled' := by
  have hfkeys : M.hash e ∉ led.map (fun p : σ × Nat => M.hash p.1) := by
    rw [← seen_map_fst hi.seen_eq]
    exact seenLookup_none_iff.mp hl
  have Aseen : c.seen ++ [(M.hash e, e)]
      = (led ++ [(e, 0)]).map (fun p : σ × Nat => (M.hash p.1, p.1)) := by
    rw [List.map_append, hi.seen_eq]
    rfl
  have Anodup : ((led ++ [(e, 0)]).map (fun p : σ × Nat => M.hash p.1)).Nodup := by
    rw [List.map_append, List.nodup_append]
    refine ⟨hi.nodup, List.nodup_singleton _, ?_⟩
    intro a ha hb
    rw [List.map_singleton, List.mem_singleton] at hb
    subst hb
    exact hfkeys ha
  have Azero : ∀ p ∈ led ++ [(e, 0)], p.2 = 0 := by
    intro p hp
    rcases List.mem_append.mp hp with hp | hp
    · exact hi.zero p hp
    · rw [List.mem_singleton] at hp
      subst hp
      rfl
  have Ainit0 : ∀ p ∈ led ++ [(e, 0)], normSt M p.1 ∈ reachList M true inits0 0 := by
    intro p hp
    rcases List.mem_append.mp hp with hp | hp
    · exact hi.init0 p hp
    · rw [List.mem_singleton] at hp
      subst hp
      exact mem_reachList_zero.mpr ⟨e, he0, rfl⟩
  have Aprevz : ∀ p ∈ led ++ [(e, 0)], M.prevHash p.1 = 0 := by
    intro p hp
    rcases List.mem_append.mp hp with hp | hp
    · exact hi.prevz p hp
    · rw [List.mem_singleton] at hp
      subst hp
      exact hez
  have AdoneSeen : ∀ s ∈ done ++ [e],
      ∃ y, seenLookup (c.seen ++ [(M.hash e, e)]) (M.hash s) = some y := by
    intro s hs
    rcases List.mem_append.mp hs with hs | hs
    · obtain ⟨y, hy⟩ := hi.doneSeen s hs
      exact ⟨y, seenLookup_append_left _ hy⟩
    · rw [List.mem_singleton] at hs
      subst hs
      exact ⟨s, seenLookup_fresh_append s hl⟩
  rcases hcon : M.satisfyConstraint e with _ | _
  · rw [onNewState_fresh_pruned hl hinv hcon]
    refine ⟨rfl, qled, Aseen, hi.queue_eq,
      hi.qsub.trans (List.sublist_append_left _ _), Anodup, Azero, Ainit0, Aprevz,
      ?_, hi.qexp, AdoneSeen⟩
    intro p hp hpe
    rcases List.mem_append.mp hp with hp | hp
    · exact hi.allq p hp hpe
    · rw [List.mem_singleton] at hp
      subst hp
      rw [expandableB, hinv, hcon] at hpe
      cases hpe
  · rw [onNewState_fresh_push hl hinv hcon]
    refine ⟨rfl, qled ++ [(e, 0)], Aseen, ?_,
      hi.qsub.append (List.Sublist.refl _), Anodup, Azero, Ainit0, Aprevz,
      ?_, ?_, AdoneSeen⟩
    · rw [List.map_append, hi.queue_eq]
      rfl
    · intro p hp hpe
      rcases List.mem_append.mp hp with hp | hp
      · exact List.mem_append_left _ (hi.allq p hp hpe)
      · rw [List.mem_singleton] at hp
        subst hp
        exact List.mem_append_right _ (List.mem_singleton_self _)
    · intro p hp
      rcases List.mem_append.mp hp with hp | hp
      · exact hi.qexp p hp
      · rw [List.mem_singleton] at hp
        subst hp
        rw [expandableB, hinv, hcon]
        rfl

/-- Submitting the initial states: a violation yields a one-state trace for
a depth-0 state; a clean pass yields the initial-phase invariant with all
initial states submitted. -/
theorem init_phase {σ : Type} [DecidableEq σ] {M : Model σ} {inits0 : List σ} :
    ∀ (is done : List σ) (c : Chk σ) (led qled : List (σ × Nat)),
    InitInv M inits0 done c led qled →
    (∀ e ∈ is, e ∈ inits0 ∧ M.prevHash e = 0) →
    ((∀ v, (emitList M c is).bad = some v →
        IsDepth M true inits0 0 (normSt M v) ∧ countTrace (emitList M c is).out = 1)
    ∧ ((emitList M c is).bad = none →
        ∃ led' qled', InitInv M inits0 (done ++ is) (emitList M c is).chk led' qled')) := by
  intro is
  induction is with
  | nil =>
    intro done c led qled hi his
    constructor
    · intro v hv
      rw [emitList_nil] at hv
      cases hv
    · intro _
      exact ⟨led, qled, by rw [List.append_nil]; exact hi⟩
  | cons e is ih =>
    intro done c led qled hi his
    obtain ⟨hein, heprev⟩ := his e (List.mem_cons_self _ _)
    have his' : ∀ e' ∈ is, e' ∈ inits0 ∧ M.prevHash e' = 0 :=
      fun e' h => his e' (List.mem_cons_of_mem _ h)
    have hdone : done ++ e :: is = (done ++ [e]) ++ is := by
      rw [List.append_assoc]
      rfl
    rcases hl : seenLookup c.seen (M.hash e) with _ | x
    · rcases hinv : M.satisfyInvariant e with _ | _
      · have hbad : (onNewState M c e).bad = some e := by
          rw [onNewState_fresh_violated hl hinv]
        constructor
        · intro v hv
          simp only [emitList_cons, hbad] at hv ⊢
          obtain rfl : e = v := by injection hv
          refine ⟨⟨mem_reachList_zero.mpr ⟨e, hein, rfl⟩,
            fun m hm => absurd hm (Nat.not_lt_zero m)⟩, ?_⟩
          have htr : traceOf M (c.seen ++ [(M.hash e, e)]) e = Except.ok [e] := by
            unfold traceOf
            rw [traceWalk_prev_zero heprev]
            rfl
          rw [onNewState_fresh_violated hl hinv]
          show countTrace
            (OutEvent.violated ::
              traceEvents (traceOf M (c.seen ++ [(M.hash e, e)]) e)) = 1
          rw [htr, countTrace_violation]
          rfl
        · intro hnone
          simp only [emitList_cons, hbad] at hnone
          cases hnone
      · obtain ⟨hbad, qled', hi'⟩ := init_fresh_ok hi hein heprev hl hinv
        have hnext := ih (done ++ [e]) (onNewState M c e).chk _ qled' hi' his'
        constructor
        · intro v hv
          simp only [emitList_cons, hbad] at hv ⊢
          obtain ⟨hdep, hcount⟩ := hnext.1 v hv
          refine ⟨hdep, ?_⟩
          rw [countTrace_append, onNewState_ok_out hbad, countTrace_nil, Nat.zero_add]
          exact hcount
        · intro hnone
          simp only [emitList_cons, hbad] at hnone ⊢
          rw [hdone]
          exact hnext.2 hnone
    · obtain ⟨hbad, hi'⟩ := init_dup hi hl
      have hnext := ih (done ++ [e]) (onNewState M c e).chk led qled hi' his'
      constructor
      · intro v hv
        simp only [emitList_cons, hbad] at hv ⊢
        obtain ⟨hdep, hcount⟩ := hnext.1 v hv
        refine ⟨hdep, ?_⟩
        rw [countTrace_append, onNewState_ok_out hbad, countTrace_nil, Nat.zero_add]
        exact hcount
      · intro hnone
        simp only [emitList_cons, hbad] at hnone ⊢
        rw [hdone]
        exact hnext.2 hnone

/-! ## Claim theorems -/

/-- C1: for a state `s` whose fingerprint is not yet a key of the seen-set
and which fails the invariant, `onNewState` inserts `(s.hash(), s)` into the
seen-set before evaluating `satisfyInvariant` (the resulting seen-set is
`c.seen ++ [(s.hash(), s)]` and the trace is reconstructed over exactly that
extended seen-set), prints the `"Violated invariant."` banner followed by
the reconstructed trace, raises the stop signal (`bad = some s` models the
thrown `InvariantViolatedException`), and at that moment `s` is present in
the seen-set, so looking the violating state up by its fingerprint
succeeds. -/
theorem c1_inserted_before_invariant_check {σ : Type} (M : Model σ) (c : Chk σ) (s : σ)
    (hfresh : seenLookup c.seen (M.hash s) = none)
    (hinv : M.satisfyInvariant s = false) :
    onNewState M c s =
      ⟨{ seen := c.seen ++ [(M.hash s, s)], queue := c.queue,
         generated := c.generated + 1, unique := c.unique + 1 },
       OutEvent.violated :: traceEvents (traceOf M (c.seen ++ [(M.hash s, s)]) s),
       some s⟩
  ∧ seenLookup (c.seen ++ [(M.hash s, s)]) (M.hash s) = some s :=
  ⟨onNewState_fresh_violated hfresh hinv, seenLookup_fresh_append s hfresh⟩

/-- Witness for C1 at a concrete input: the state `⟨0, 2⟩` of the line model
is fresh for the empty checker and fails the invariant. -/
theorem c1_witness :
    seenLookup ({} : Chk LSt).seen (LineM.hash ⟨0, 2⟩) = none
  ∧ LineM.satisfyInvariant ⟨0, 2⟩ = false
  ∧ (onNewState LineM {} ⟨0, 2⟩ =
      ⟨{ seen := ({} : Chk LSt).seen ++ [(LineM.hash ⟨0, 2⟩, ⟨0, 2⟩)],
         queue := ({} : Chk LSt).queue,
         generated := ({} : Chk LSt).generated + 1, unique := ({} : Chk LSt).unique + 1 },
       OutEvent.violated ::
         traceEvents (traceOf LineM (({} : Chk LSt).seen ++ [(LineM.hash ⟨0, 2⟩, ⟨0, 2⟩)]) ⟨0, 2⟩),
       some ⟨0, 2⟩⟩
    ∧ seenLookup (({} : Chk LSt).seen ++ [(LineM.hash ⟨0, 2⟩, ⟨0, 2⟩)]) (LineM.hash ⟨0, 2⟩)
        = some ⟨0, 2⟩) :=
  ⟨rfl, rfl, c1_inserted_before_invariant_check LineM {} ⟨0, 2⟩ rfl rfl⟩

/-- C3 (counterexample): for the model whose `generate` emits nothing
(`TrivM`, a contract-conforming model with no model fields), `run` on a
single initial state terminates normally with `generated = 2` and
`unique = 1`, not `generated = 1` as claimed: after popping the initial
state, `run` makes one extra `onNewState` call on the restored working copy
(src/checker.h line 79), which counts in `generated` even though `generate`
emitted nothing. -/
theorem c3_counterexample :
    (run TrivM 2 [(0 : Fingerprint)]).map (fun p => (p.1.generated, p.1.unique))
      = some (2, 1)
  ∧ (2 : Nat) ≠ 1 :=
  ⟨rfl, by decide⟩

/-- C3 (amended): for any model whose `generate` emits no successors and
leaves the working state unchanged, whose hash ignores the `prevHash` field,
and whose single initial state passes the invariant and the constraint,
`run` terminates normally with `generated = 2` and `unique = 1`:
`generated` counts every call to `onNewState` — one per emission plus one
per dequeued state (the engine re-submits the restored working state after
`generate` returns) — while `unique` counts exactly the successful seen-set
insertions. -/
theorem c3_amended_one_state_run {σ : Type} (M : Model σ) (s0 : σ)
    (hgen : ∀ w, M.generate w = (w, []))
    (hinv : M.satisfyInvariant s0 = true)
    (hcon : M.satisfyConstraint s0 = true)
    (hhash : M.hash (M.setPrevHash s0 (M.hash s0)) = M.hash s0) :
    run M 1 [s0] =
      some ({ seen := [(M.hash s0, s0)], queue := [], generated := 2, unique := 1 },
            [OutEvent.finished, OutEvent.stats 2 1 1], none) := by
  have h0 : onNewState M {} s0 =
      ⟨{ seen := [(M.hash s0, s0)], queue := [s0], generated := 1, unique := 1 }, [], none⟩ := by
    have h := onNewState_fresh_push (M := M) (c := {}) (s := s0) rfl hinv hcon
    simpa using h
  have hemit : emitList M {} [s0] =
      ⟨{ seen := [(M.hash s0, s0)], queue := [s0], generated := 1, unique := 1 }, [], none⟩ := by
    rw [emitList_cons, h0]
    simp [emitList_nil]
  have hdup : onNewState M
      { seen := [(M.hash s0, s0)], queue := [], generated := 1, unique := 1 }
      (M.setPrevHash s0 (M.hash s0)) =
      ⟨{ seen := [(M.hash s0, s0)], queue := [], generated := 2, unique := 1 }, [], none⟩ := by
    have h := onNewState_dup (M := M)
      (c := { seen := [(M.hash s0, s0)], queue := [], generated := 1, unique := 1 })
      (s := M.setPrevHash s0 (M.hash s0)) (x := s0)
      (by rw [hhash]; exact seenLookup_singleton _ _)
    simpa using h
  have hexp : expand M
      { seen := [(M.hash s0, s0)], queue := [], generated := 1, unique := 1 } s0 =
      ⟨{ seen := [(M.hash s0, s0)], queue := [], generated := 2, unique := 1 }, [], none⟩ := by
    rw [expand_eq, hgen]
    simp [emitList_nil, hdup]
  rw [run_eq, hemit]
  simp only [runLoop_succ, runLoop_zero]
  simp [hexp]

/-- Witness for the amended C3 at a concrete input (`TrivM`, initial state
`0`). -/
theorem c3_witness :
    TrivM.satisfyInvariant 0 = true
  ∧ TrivM.satisfyConstraint 0 = true
  ∧ TrivM.hash (TrivM.setPrevHash 0 (TrivM.hash 0)) = TrivM.hash 0
  ∧ run TrivM 1 [(0 : Fingerprint)] =
      some ({ seen := [(TrivM.hash 0, 0)], queue := [], generated := 2, unique := 1 },
            [OutEvent.finished, OutEvent.stats 2 1 1], none) :=
  ⟨rfl, rfl, rfl, c3_amended_one_state_run TrivM 0 (fun _ => rfl) rfl rfl rfl⟩

/-- C4: `run` does NOT set the initial state's `prevHash` to `0` before
calling `onNewState` — it passes the state exactly as the caller left it.
Evaluating the code at the failing input: an initial state whose `prevHash`
field holds `7` (in `TrivM` the state is exactly the `prevHash` field) is
stored in the seen-set with `prevHash = 7 ≠ 0`. -/
theorem c4_initial_prevHash_not_zeroed :
    (run TrivM 2 [(7 : Fingerprint)]).map (fun p => p.1.seen) = some [(1, 7)]
  ∧ (7 : Fingerprint) ≠ 0 :=
  ⟨rfl, by decide⟩

/-- C5 (counterexample): two DieHard states that agree on `big` and `small`
but differ in `prevHash` receive the SAME fingerprint (the user's
`AbslHashValue` combines only `s.big` and `s.small`), so the second one is
deduplicated against the first rather than stored as a distinct entry. -/
theorem c5_counterexample :
    ({ prevHash := 0, big := 0, small := 0 } : DHState).big
      = ({ prevHash := 1, big := 0, small := 0 } : DHState).big
  ∧ ({ prevHash := 0, big := 0, small := 0 } : DHState).small
      = ({ prevHash := 1, big := 0, small := 0 } : DHState).small
  ∧ ({ prevHash := 0, big := 0, small := 0 } : DHState).prevHash
      ≠ ({ prevHash := 1, big := 0, small := 0 } : DHState).prevHash
  ∧ (dhModel dhMix).hash { prevHash := 0, big := 0, small := 0 }
      = (dhModel dhMix).hash { prevHash := 1, big := 0, small := 0 }
  ∧ (onNewState (dhModel dhMix)
        ((onNewState (dhModel dhMix) {} { prevHash := 0, big := 0, small := 0 }).chk)
        { prevHash := 1, big := 0, small := 0 }).chk.seen
      = (onNewState (dhModel dhMix) {} { prevHash := 0, big := 0, small := 0 }).chk.seen
  ∧ (onNewState (dhModel dhMix) {} { prevHash := 0, big := 0, small := 0 }).chk.seen.length
      = 1 := by
  refine ⟨rfl, rfl, by decide, rfl, rfl, rfl⟩

/-- C5 (amended): for every mixing function (the `absl` hash is an
unspecified function of exactly the `AbslHashValue` arguments `big` and
`small`), two DieHard states agreeing on the model fields receive equal
fingerprints regardless of their `prevHash`, and hence the same logical
state reached via a different predecessor is deduplicated by the seen-set
insert (one entry, not two). -/
theorem c5_amended_hash_ignores_prevHash (mix : Int → Int → Fingerprint)
    (s t : DHState) (c : Chk DHState)
    (hb : s.big = t.big) (hs : s.small = t.small) :
    (dhModel mix).hash s = (dhModel mix).hash t
  ∧ (onNewState (dhModel mix) ((onNewState (dhModel mix) c s).chk) t).chk.seen
      = ((onNewState (dhModel mix) c s).chk).seen := by
  have hh : (dhModel mix).hash s = (dhModel mix).hash t := by
    simp only [dhModel, hb, hs]
  refine ⟨hh, ?_⟩
  obtain ⟨y, hy⟩ := onNewState_key_present (dhModel mix) c s
  rw [onNewState_dup (x := y) (by rw [← hh]; exact hy)]

/-- Witness for the amended C5 at a concrete input. -/
theorem c5_witness :
    ({ prevHash := 0, big := 0, small := 0 } : DHState).big
      = ({ prevHash := 1, big := 0, small := 0 } : DHState).big
  ∧ ({ prevHash := 0, big := 0, small := 0 } : DHState).small
      = ({ prevHash := 1, big := 0, small := 0 } : DHState).small
  ∧ ((dhModel dhMix).hash { prevHash := 0, big := 0, small := 0 }
      = (dhModel dhMix).hash { prevHash := 1, big := 0, small := 0 }
    ∧ (onNewState (dhModel dhMix)
          ((onNewState (dhModel dhMix) {} { prevHash := 0, big := 0, small := 0 }).chk)
          { prevHash := 1, big := 0, small := 0 }).chk.seen
        = ((onNewState (dhModel dhMix) {} { prevHash := 0, big := 0, small := 0 }).chk).seen) :=
  ⟨rfl, rfl, c5_amended_hash_ignores_prevHash dhMix _ _ {} rfl rfl⟩

/-- C6: the emitter's snapshot/restore discipline.
(1) After `either body` returns normally, the working state equals its value
just before the call.
(2) Two sequential `either` branches both start from the same pre-state `w`:
the first branch's mutations do not leak into the second, and the combined
fragment restores `w`.
(3) A nested `either` restores to its own local pre-state: in a branch that
mutates by `a`, then runs an inner `either` branch `b`, then mutates by `d`,
the inner branch's mutation `b` does not leak into `d` (which sees `a w`),
and the outer branch emits `b (a w)` then `d (a w)` and restores `w`.
(4) The engine side: an expansion only appends to the frontier queue, so the
states already waiting (in particular the one popped next) are exactly as
they were admitted, untouched by any branch's mutations. -/
theorem c6_either_snapshot_restore {σ : Type} (f g : GenM σ) (a b d : σ → σ) (w : σ)
    (M : Model σ) (c : Chk σ) (cur : σ) :
    (either f w).1 = w
  ∧ genSeq (either f) (either g) w
      = (w, ((f w).2 ++ [(f w).1]) ++ ((g w).2 ++ [(g w).1]))
  ∧ either (genSeq (genAct a) (genSeq (either (genAct b)) (genAct d))) w
      = (w, [b (a w), d (a w)])
  ∧ (∃ ext, (expand M c cur).chk.queue = c.queue ++ ext) := by
  refine ⟨rfl, ?_, ?_, expand_queue_extends M c cur⟩
  · simp [genSeq, either]
  · simp [either, genSeq, genAct]

/-- C7: a newly admitted state `s` that passes the invariant but fails the
constraint is stored in the seen-set with `unique` incremented and
`onNewState` returns normally (empty output, no exception), but `s` is not
pushed onto the frontier; moreover — given the standing run invariant that
every queued state's fingerprint is a key of the seen-set — `s` is not in
the queue then, nor in the queue of any checker state reachable by further
BFS iterations, so `s` is never dequeued (every iteration dequeues the
queue head, which is never `s`) and no expansion ever generates successors
from `s`. -/
theorem c7_constraint_pruned_never_expanded {σ : Type} (M : Model σ) (c : Chk σ) (s : σ)
    (hfresh : seenLookup c.seen (M.hash s) = none)
    (hinv : M.satisfyInvariant s = true)
    (hcon : M.satisfyConstraint s = false)
    (hq : ∀ q ∈ c.queue, ∃ y, seenLookup c.seen (M.hash q) = some y) :
    onNewState M c s =
      ⟨{ seen := c.seen ++ [(M.hash s, s)], queue := c.queue,
         generated := c.generated + 1, unique := c.unique + 1 }, [], none⟩
  ∧ ∀ c', Relation.ReflTransGen (EStep M) (onNewState M c s).chk c' →
      s ∉ c'.queue ∧ ∀ cur rest, c'.queue = cur :: rest → cur ≠ s := by
  have heq := onNewState_fresh_pruned hfresh hinv hcon
  refine ⟨heq, ?_⟩
  intro c' hsteps
  have hkey : ∃ y, seenLookup (onNewState M c s).chk.seen (M.hash s) = some y := by
    rw [heq]
    exact ⟨s, seenLookup_fresh_append s hfresh⟩
  have hnotq : s ∉ (onNewState M c s).chk.queue := by
    rw [heq]
    intro hmem
    obtain ⟨y, hy⟩ := hq s hmem
    rw [hfresh] at hy
    cases hy
  obtain ⟨hk', hq'⟩ := banned_steps hsteps hkey hnotq
  refine ⟨hq', ?_⟩
  intro cur rest hqueue hcur
  apply hq'
  rw [hqueue, hcur]
  exact List.mem_cons_self _ _

/-- Witness for C7 at a concrete input: in the pruned-graph model, after
admitting the initial state, the state `⟨1, 1⟩` (fresh, invariant holds,
constraint fails) is stored but not enqueued. -/
theorem c7_witness :
    seenLookup [((1 : Fingerprint), (⟨0, 0⟩ : LSt))] (PModel.hash ⟨1, 1⟩) = none
  ∧ PModel.satisfyInvariant ⟨1, 1⟩ = true
  ∧ PModel.satisfyConstraint ⟨1, 1⟩ = false
  ∧ onNewState PModel
      { seen := [(1, ⟨0, 0⟩)], queue := [⟨0, 0⟩], generated := 1, unique := 1 } ⟨1, 1⟩
      = ⟨{ seen := [(1, ⟨0, 0⟩), (2, ⟨1, 1⟩)], queue := [⟨0, 0⟩],
           generated := 2, unique := 2 }, [], none⟩
  ∧ (⟨1, 1⟩ : LSt) ∉ (onNewState PModel
      { seen := [(1, ⟨0, 0⟩)], queue := [⟨0, 0⟩], generated := 1, unique := 1 }
      ⟨1, 1⟩).chk.queue := by
  have h := c7_constraint_pruned_never_expanded PModel
    { seen := [(1, ⟨0, 0⟩)], queue := [⟨0, 0⟩], generated := 1, unique := 1 } ⟨1, 1⟩
    rfl rfl rfl
    (by
      intro q hq
      rw [List.mem_singleton] at hq
      subst hq
      exact ⟨⟨0, 0⟩, rfl⟩)
  exact ⟨rfl, rfl, rfl, h.1, (h.2 _ Relation.ReflTransGen.refl).1⟩

/-- C8: after every call to `onNewState` (returning normally or not),
`unique` equals the number of seen-set entries and `generated ≥ unique`
(starting from any checker state satisfying these, as the initial empty one
does); and along any number of BFS iterations the two counters and the
seen-set size are monotonically non-decreasing, the seen-set being
insert-only (the old entry list is a prefix of the new one). -/
theorem c8_unique_equals_seen_size {σ : Type} (M : Model σ) (c c' : Chk σ) (s : σ)
    (h1 : c.unique = c.seen.length) (h2 : c.unique ≤ c.generated)
    (hsteps : Relation.ReflTransGen (EStep M) c c') :
    ((onNewState M c s).chk.unique = (onNewState M c s).chk.seen.length
      ∧ (onNewState M c s).chk.unique ≤ (onNewState M c s).chk.generated
      ∧ c.generated ≤ (onNewState M c s).chk.generated
      ∧ c.unique ≤ (onNewState M c s).chk.unique
      ∧ ∃ ext, (onNewState M c s).chk.seen = c.seen ++ ext)
  ∧ (c'.unique = c'.seen.length ∧ c'.unique ≤ c'.generated
      ∧ c.generated ≤ c'.generated ∧ c.unique ≤ c'.unique
      ∧ ∃ ext2, c'.seen = c.seen ++ ext2) := by
  obtain ⟨⟨a1, a2⟩, a3, a4, e1, a5⟩ := counts_onNewState M c s h1 h2
  obtain ⟨⟨b1, b2⟩, b3, b4, e2, b5⟩ := counts_steps hsteps h1 h2
  exact ⟨⟨a1, a2, a3, a4, e1, a5⟩, b1, b2, b3, b4, e2, b5⟩

/-- Witness for C8 at a concrete input (`LineM`, the empty checker state,
the zero-iteration run). -/
theorem c8_witness :
    ({} : Chk LSt).unique = ({} : Chk LSt).seen.length
  ∧ ({} : Chk LSt).unique ≤ ({} : Chk LSt).generated
  ∧ (((onNewState LineM {} ⟨0, 0⟩).chk.unique = (onNewState LineM {} ⟨0, 0⟩).chk.seen.length
      ∧ (onNewState LineM {} ⟨0, 0⟩).chk.unique ≤ (onNewState LineM {} ⟨0, 0⟩).chk.generated
      ∧ ({} : Chk LSt).generated ≤ (onNewState LineM {} ⟨0, 0⟩).chk.generated
      ∧ ({} : Chk LSt).unique ≤ (onNewState LineM {} ⟨0, 0⟩).chk.unique
      ∧ ∃ ext, (onNewState LineM {} ⟨0, 0⟩).chk.seen = ({} : Chk LSt).seen ++ ext)
    ∧ (({} : Chk LSt).unique = ({} : Chk LSt).seen.length
      ∧ ({} : Chk LSt).unique ≤ ({} : Chk LSt).generated
      ∧ ({} : Chk LSt).generated ≤ ({} : Chk LSt).generated
      ∧ ({} : Chk LSt).unique ≤ ({} : Chk LSt).unique
      ∧ ∃ ext2, ({} : Chk LSt).seen = ({} : Chk LSt).seen ++ ext2)) :=
  ⟨rfl, Nat.le_refl _,
   c8_unique_equals_seen_size LineM {} {} ⟨0, 0⟩ rfl (Nat.le_refl _)
     Relation.ReflTransGen.refl⟩

/-- C9 (counterexample): when a trace-reconstruction lookup of a nonzero
`prevHash` does fail, the engine does NOT report it distinctly: the source
(`src/checker.h` line 119) dereferences `_seenStates.find(...)` without any
check, which is undefined behaviour — modelled here by the walk reaching the
`missingKey` error value — and no output whatsoever is produced for it
(there is no reporting branch in the code).  Concretely: an end state with
`prevHash = 5` against a seen-set whose only key is `1`. -/
theorem c9_counterexample :
    (5 : Fingerprint) ≠ 0
  ∧ seenLookup [((1 : Fingerprint), (0 : Fingerprint))] 5 = none
  ∧ traceOf TrivM [((1 : Fingerprint), (0 : Fingerprint))] 5
      = Except.error (TraceErr.missingKey 5)
  ∧ traceEvents (σ := Fingerprint) (Except.error (TraceErr.missingKey 5)) = [] :=
  ⟨by decide, rfl, rfl, rfl⟩

/-- C9 (amended): during any returning run whose model obeys the `prevHash`
contract (the field is engine-owned: `generate` restores the working state
and emits states carrying the working `prevHash`) and whose initial states
present `prevHash = 0`, EVERY stored state's trace reconstruction over the
final seen-set succeeds — every lookup of a nonzero `prevHash` finds a
strictly earlier entry, so the missing-key branch (and the `outOfFuel`
divergence) is unreachable.  In particular the trace printed at a violation
is the `Except.ok` case. -/
theorem c9_engine_trace_lookups_succeed {σ : Type} {M : Model σ} {fuel : Nat}
    {inits : List σ} {c : Chk σ} {out : List (OutEvent σ)} {bad : Option σ}
    (hps : ∀ s f, M.prevHash (M.setPrevHash s f) = f)
    (hgf : ∀ w, (M.generate w).1 = w)
    (hgp : ∀ w e, e ∈ (M.generate w).2 → M.prevHash e = M.prevHash w)
    (hinit : ∀ s ∈ inits, M.prevHash s = 0)
    (hrun : run M fuel inits = some (c, out, bad)) :
    ∀ kv ∈ c.seen, ∃ l, traceOf M c.seen kv.2 = Except.ok l := by
  have hch := chain_run hps hgf hgp hinit hrun
  intro kv hkv
  obtain ⟨l, hl⟩ := seenChainR_walk hch kv hkv c.seen.length (le_refl _)
  exact ⟨l.reverse, by rw [traceOf, hl]; rfl⟩

/-- Witness for the amended C9 at a concrete input: the line model's
violating run; trace reconstruction succeeds from each of its three stored
states. -/
theorem c9_witness :
    (∀ s ∈ [(⟨0, 0⟩ : LSt)], LineM.prevHash s = 0)
  ∧ ∀ kv ∈ [((1 : Fingerprint), (⟨0, 0⟩ : LSt)), (2, ⟨1, 1⟩), (3, ⟨2, 2⟩)],
      ∃ l, traceOf LineM [((1 : Fingerprint), (⟨0, 0⟩ : LSt)), (2, ⟨1, 1⟩), (3, ⟨2, 2⟩)] kv.2
        = Except.ok l := by
  constructor
  · decide
  · exact c9_engine_trace_lookups_succeed (M := LineM)
      (fun s f => rfl) (fun w => rfl)
      (fun w e he => by obtain ⟨n, hn, rfl⟩ := List.mem_map.mp he; rfl)
      (by decide)
      (show run LineM 3 [⟨0, 0⟩] = some
        ({ seen := [(1, ⟨0, 0⟩), (2, ⟨1, 1⟩), (3, ⟨2, 2⟩)], queue := [],
           generated := 4, unique := 3 },
         [OutEvent.violated, OutEvent.traceState 0 ⟨0, 0⟩,
          OutEvent.traceState 1 ⟨1, 1⟩, OutEvent.traceState 2 ⟨2, 2⟩,
          OutEvent.finished, OutEvent.stats 4 3 3],
         some ⟨2, 2⟩) from rfl)

/-- C10: whenever `run` returns (normal exhaustion or a caught
`InvariantViolatedException`), its output ends with the
`"Model checking finished."` banner followed by the `getStats()` line
(generated, unique, seen-set size of the final checker state); and if the
run was terminated by a violation, the violation banner (and hence the
trace) appears in the part of the output printed before the final two
lines. -/
theorem c10_finished_banner_always_printed {σ : Type} {M : Model σ} {fuel : Nat}
    {inits : List σ} {c : Chk σ} {out : List (OutEvent σ)} {bad : Option σ}
    (h : run M fuel inits = some (c, out, bad)) :
    ∃ pre, out = pre ++ [OutEvent.finished, OutEvent.stats c.generated c.unique c.seen.length]
      ∧ (bad.isSome → OutEvent.violated ∈ pre) := by
  rw [run_eq] at h
  rcases hb : (emitList M {} inits).bad with _ | v
  · rw [hb] at h
    dsimp only at h
    rcases hrl : runLoop M fuel (emitList M {} inits).chk with _ | ⟨c2, out2, bad2⟩
    · rw [hrl] at h; simp at h
    · rw [hrl] at h
      simp only [Option.map_some', Option.some.injEq, Prod.mk.injEq] at h
      obtain ⟨h1, h2, h3⟩ := h
      refine ⟨(emitList M {} inits).out ++ out2, ?_, ?_⟩
      · rw [← h2, ← h1, List.append_assoc]
      · intro hs
        rcases hbad2 : bad2 with _ | v2
        · rw [← h3, hbad2] at hs; simp at hs
        · rw [List.mem_append]
          exact Or.inr (runLoop_bad_sound (by rw [hrl, hbad2]))
  · rw [hb] at h
    simp only [Option.map_some', Option.some.injEq, Prod.mk.injEq] at h
    obtain ⟨h1, h2, h3⟩ := h
    exact ⟨(emitList M {} inits).out, by rw [← h2, ← h1], fun _ => emitList_bad_sound hb⟩

/-- Witness for C10 at a concrete input: the pruned-graph model's run ends
in a violation, and its output still ends with the finished banner and the
stats line. -/
theorem c10_witness :
    ∃ pre, ([OutEvent.violated,
             OutEvent.traceState 0 (⟨0, 0⟩ : LSt), OutEvent.traceState 1 (⟨1, 2⟩ : LSt),
             OutEvent.traceState 2 (⟨3, 3⟩ : LSt), OutEvent.traceState 3 (⟨4, 4⟩ : LSt),
             OutEvent.finished, OutEvent.stats 7 5 5] : List (OutEvent LSt))
        = pre ++ [OutEvent.finished, OutEvent.stats 7 5 5]
      ∧ ((some (⟨4, 4⟩ : LSt)).isSome → OutEvent.violated ∈ pre) :=
  c10_finished_banner_always_printed (M := PModel)
    (show run PModel 5 [⟨0, 0⟩] = some
      ({ seen := [(1, ⟨0, 0⟩), (2, ⟨1, 1⟩), (3, ⟨1, 2⟩), (4, ⟨3, 3⟩), (5, ⟨4, 4⟩)],
         queue := [], generated := 7, unique := 5 },
       [OutEvent.violated,
        OutEvent.traceState 0 ⟨0, 0⟩, OutEvent.traceState 1 ⟨1, 2⟩,
        OutEvent.traceState 2 ⟨3, 3⟩, OutEvent.traceState 3 ⟨4, 4⟩,
        OutEvent.finished, OutEvent.stats 7 5 5],
       some ⟨4, 4⟩) from rfl)

/-- C2 (counterexample): the literal reading — trace length = 1 + the minimum
number of emit-transitions from an initial state to the violating state over
the whole transition graph — is false, because constraint pruning removes
the short path from the graph the engine explores.  In the pruned-path model
the violating state `⟨4, 4⟩` (logical content: vertex `4`) is two
emit-transitions from the initial vertex `0` (via the constraint-violating
vertex `1`), yet the run's violation trace has 4 lines, not `2 + 1`. -/
theorem c2_counterexample :
    run PModel 5 [⟨0, 0⟩] = some
      ({ seen := [(1, ⟨0, 0⟩), (2, ⟨1, 1⟩), (3, ⟨1, 2⟩), (4, ⟨3, 3⟩), (5, ⟨4, 4⟩)],
         queue := [], generated := 7, unique := 5 },
       [OutEvent.violated,
        OutEvent.traceState 0 ⟨0, 0⟩, OutEvent.traceState 1 ⟨1, 2⟩,
        OutEvent.traceState 2 ⟨3, 3⟩, OutEvent.traceState 3 ⟨4, 4⟩,
        OutEvent.finished, OutEvent.stats 7 5 5],
       some ⟨4, 4⟩)
    ∧ IsDepth PModel false [⟨0, 0⟩] 2 (normSt PModel ⟨4, 4⟩)
    ∧ countTrace
        [OutEvent.violated,
         OutEvent.traceState 0 (⟨0, 0⟩ : LSt), OutEvent.traceState 1 (⟨1, 2⟩ : LSt),
         OutEvent.traceState 2 (⟨3, 3⟩ : LSt), OutEvent.traceState 3 (⟨4, 4⟩ : LSt),
         OutEvent.finished, OutEvent.stats 7 5 5] ≠ 2 + 1 := by
  refine ⟨rfl, ⟨by decide, ?_⟩, by decide⟩
  intro m hm hmem
  exact absurd (reachList_mono (show m ≤ 1 by omega) hmem) (by decide)

/-- C2 (amended): for every run ending in an invariant violation — with the
model obeying the `prevHash` contract, a collision-free `prevHash`-ignoring
nonzero hash, and initial states presenting `prevHash = 0` — the trace
printed at the violation has length `d + 1`, where `d` is the breadth-first
depth of the violating state's logical content: the minimum number of
emit-transitions from an initial state in the graph the engine explores
(transitions taken only out of states passing both the invariant and the
constraint — constraint pruning may make `d` larger than the distance in
the full transition graph, see the counterexample). -/
theorem c2_amended_trace_length_is_bfs_depth {σ : Type} [DecidableEq σ] {M : Model σ}
    {fuel : Nat} {inits : List σ} {c : Chk σ} {out : List (OutEvent σ)} {v : σ} {d : Nat}
    (hc : Contract M) (hg : GoodHash M)
    (hz : ∀ s ∈ inits, M.prevHash s = 0)
    (hrun : run M fuel inits = some (c, out, some v))
    (hd : IsDepth M true inits d (normSt M v)) :
    countTrace out = d + 1 := by
  have hi0 : InitInv M inits [] ({} : Chk σ) [] [] :=
    ⟨rfl, rfl, List.nil_sublist _, List.nodup_nil,
     fun p hp => absurd hp (List.not_mem_nil p),
     fun p hp => absurd hp (List.not_mem_nil p),
     fun p hp => absurd hp (List.not_mem_nil p),
     fun p hp => absurd hp (List.not_mem_nil p),
     fun p hp => absurd hp (List.not_mem_nil p),
     fun s hs => absurd hs (List.not_mem_nil s)⟩
  have hip := init_phase inits [] ({} : Chk σ) [] [] hi0 (fun e he => ⟨he, hz e he⟩)
  rw [run_eq] at hrun
  rcases hbe : (emitList M {} inits).bad with _ | v0
  · rw [hbe] at hrun
    dsimp only at hrun
    rcases hrl : runLoop M fuel (emitList M {} inits).chk with _ | ⟨c1, out1, bad1⟩
    · rw [hrl] at hrun
      simp at hrun
    · rw [hrl] at hrun
      simp only [Option.map_some', Option.some.injEq, Prod.mk.injEq] at hrun
      obtain ⟨h1, h2, h3⟩ := hrun
      obtain ⟨led, qled, hi⟩ := hip.2 hbe
      rw [List.nil_append] at hi
      have hbfs := init_to_bfs hi
      obtain ⟨dv, hdv, hcnt⟩ :=
        bfs_runLoop hc hg fuel _ led qled c1 out1 bad1 hbfs hrl v h3
      obtain rfl : d = dv := isDepth_unique hd hdv
      rw [← h2, countTrace_append, countTrace_append, emitList_ok_out hbe,
        countTrace_nil, hcnt]
      have hfin : countTrace
          [OutEvent.finished (σ := σ), OutEvent.stats c1.generated c1.unique c1.seen.length]
          = 0 := rfl
      rw [hfin]
      omega
  · rw [hbe] at hrun
    simp only [Option.map_some', Option.some.injEq, Prod.mk.injEq] at hrun
    obtain ⟨h1, h2, h3⟩ := hrun
    obtain ⟨hdep0, hcnt⟩ := hip.1 v0 hbe
    rw [h3] at hdep0
    obtain rfl : d = 0 := isDepth_unique hd hdep0
    rw [← h2, countTrace_append, hcnt]
    rfl

/-- Witness for the amended C2 at a concrete input: the straight-line model
`0 → 1 → 2` violates at vertex `2`, whose breadth-first depth is `2`; the
run's violation trace has `2 + 1` lines. -/
theorem c2_witness :
    Contract LineM ∧ GoodHash LineM
    ∧ (∀ s ∈ [(⟨0, 0⟩ : LSt)], LineM.prevHash s = 0)
    ∧ IsDepth LineM true [⟨0, 0⟩] 2 (normSt LineM ⟨2, 2⟩)
    ∧ countTrace
        [OutEvent.violated,
         OutEvent.traceState 0 (⟨0, 0⟩ : LSt), OutEvent.traceState 1 (⟨1, 1⟩ : LSt),
         OutEvent.traceState 2 (⟨2, 2⟩ : LSt),
         OutEvent.finished, OutEvent.stats 4 3 3] = 2 + 1 := by
  have hc : Contract LineM :=
    ⟨fun s f => rfl, fun s a b => rfl, fun s => rfl, fun s f => rfl,
     fun s f => rfl, fun s f => rfl, fun w => rfl,
     fun s f => by simp [LineM, List.map_map, Function.comp]⟩
  have hg : GoodHash LineM := by
    constructor
    · intro s t h
      obtain ⟨sp, sv⟩ := s
      obtain ⟨tp, tv⟩ := t
      have h2 : sv + 1 = tv + 1 := h
      have hv : sv = tv := by omega
      subst hv
      rfl
    · intro s
      exact Nat.succ_ne_zero s.val
  have hd : IsDepth LineM true [⟨0, 0⟩] 2 (normSt LineM ⟨2, 2⟩) := by
    refine ⟨by decide, ?_⟩
    intro m hm hmem
    exact absurd (reachList_mono (show m ≤ 1 by omega) hmem) (by decide)
  refine ⟨hc, hg, by decide, hd, ?_⟩
  exact c2_amended_trace_length_is_bfs_depth hc hg (by decide)
    (show run LineM 3 [⟨0, 0⟩] = some
      ({ seen := [(1, ⟨0, 0⟩), (2, ⟨1, 1⟩), (3, ⟨2, 2⟩)], queue := [],
         generated := 4, unique := 3 },
       [OutEvent.violated, OutEvent.traceState 0 ⟨0, 0⟩,
        OutEvent.traceState 1 ⟨1, 1⟩, OutEvent.traceState 2 ⟨2, 2⟩,
        OutEvent.finished, OutEvent.stats 4 3 3],
       some ⟨2, 2⟩) from rfl) hd

end CxxMC
